import Mathlib

/-!
Verification of the round-based routing-protocol simulators of the CN_LAB
repository (lab7: `rip_sim.py`, `ospf_sim.py`, `isis_sim.py`, `bgp_sim.py`)
against their natural-language specification.

The Python code is shallowly embedded: dictionaries become functions into
`Option`, a missing key is `none` (and a computation that would raise
`KeyError` returns `none` overall), synchronous rounds become folds over the
explicit iteration lists, and the `while`/`for` round loops become fuelled
recursions that mirror the source's termination conditions exactly.
Node identifiers, AS numbers and prefixes are modelled as natural numbers.
-/

namespace NetSim

/-- Update a function-backed dictionary at one key. -/
def upd {α : Type} (f : Nat → α) (k : Nat) (v : α) : Nat → α :=
  fun x => if x = k then v else f x

/-!
## Topology model

`rip_sim.py` and `ospf_sim.py` / `isis_sim.py` operate on an undirected
`networkx` graph.  A graph is embedded as its node list (insertion order),
its adjacency function (`G.neighbors`), and its edge-cost lookup
(`G[u][v].get("cost", 1)`, with default 1 as in the source).  `mkTopo`
rebuilds those three components from an edge list exactly the way the
source scripts build the graph with `add_nodes_from` / `add_edge`.
-/

structure Topo where
  nodes : List Nat
  adj : Nat → List Nat
  w : Nat → Nat → Nat

/-- `networkx` node set after `add_nodes_from(nodes)` plus `add_edge` calls:
nodes in insertion order, edge endpoints appended when not yet present. -/
def nxNodes (nodes : List Nat) (edges : List (Nat × Nat × Nat)) : List Nat :=
  edges.foldl
    (fun acc e =>
      let acc1 := if e.1 ∈ acc then acc else acc ++ [e.1]
      if e.2.1 ∈ acc1 then acc1 else acc1 ++ [e.2.1])
    nodes

/-- `networkx` adjacency of `n`: for each edge, the opposite endpoint is
appended to `n`'s neighbour dictionary when not already a key (re-adding an
existing edge only refreshes its data; a self-loop lists the node once). -/
def nxAdj (edges : List (Nat × Nat × Nat)) (n : Nat) : List Nat :=
  edges.foldl
    (fun acc e =>
      if e.1 = n then (if e.2.1 ∈ acc then acc else acc ++ [e.2.1])
      else if e.2.1 = n then (if e.1 ∈ acc then acc else acc ++ [e.1])
      else acc)
    []

/-- `G[u][v].get("cost", 1)`: the cost attribute of the last matching
`add_edge` (later calls overwrite), defaulting to 1. -/
def nxCost (edges : List (Nat × Nat × Nat)) (u v : Nat) : Nat :=
  edges.foldl
    (fun acc e =>
      if (e.1 = u ∧ e.2.1 = v) ∨ (e.1 = v ∧ e.2.1 = u) then e.2.2 else acc)
    1

/-- Weighted topology, as built by `create_sample_topology(weighted=True)` /
`create_weighted_topology` from an explicit edge list. -/
def mkTopo (nodes : List Nat) (edges : List (Nat × Nat × Nat)) : Topo :=
  { nodes := nxNodes nodes edges
    adj := nxAdj edges
    w := nxCost edges }

/-- Unweighted topology (`weighted=False` in `rip_sim.py`): every link cost
is the hop count 1 (`cost = 1` branch of `process_update`/`initialize`). -/
def mkTopoHop (nodes : List Nat) (edges : List (Nat × Nat × Nat)) : Topo :=
  { nodes := nxNodes nodes edges
    adj := nxAdj edges
    w := fun _ _ => 1 }

/-!
## Distance-vector simulator (`rip_sim.py`)

A distance-vector table (`Router.dv`) maps a destination to
`(cost, next_hop)`; `next_hop` is `None` for unreachable destinations.
A whole table is `Table`; the simulator state maps router name to table.
-/

/-- `INF = 10**9` from `rip_sim.py`. -/
def INF : Nat := 10 ^ 9

/-- A `dv` entry `(cost, next_hop)`. -/
abbrev Entry := Nat × Option Nat

/-- A router's distance-vector dictionary `dest -> (cost, next_hop)`;
`none` means the key is absent. -/
abbrev Table := Nat → Option Entry

/-- Simulator state: router name to distance-vector table. -/
abbrev RState := Nat → Table

/-- `Router.initialize`: self gets `(0, self)`, a neighbour gets the link
cost with itself as next hop, every other known node gets `(INF, None)`. -/
def initDV (t : Topo) (name : Nat) : Table := fun d =>
  if d ∈ t.nodes then
    some (if d = name then (0, some name)
          else if d ∈ t.adj name then (t.w name d, some d)
          else (INF, none))
  else none

/-- All routers after `Router.initialize` ran over `all_nodes`. -/
def initState (t : Topo) : RState := fun n => initDV t n

/-- The `items()` view of a table, in the table's key-insertion order
(which in every run is the `all_nodes` order used by `initialize`). -/
def tableItems (order : List Nat) (tb : Table) : List (Nat × Entry) :=
  order.filterMap fun d => (tb d).map fun e => (d, e)

/-- Candidate cost in `process_update`:
`INF if nbr_cost >= INF else cost_to_nb + nbr_cost`. -/
def candCost (costToNb nbrCost : Nat) : Nat :=
  if INF ≤ nbrCost then INF else costToNb + nbrCost

/-- One iteration of the `for dest, (nbr_cost, _) in neighbor_vector.items()`
loop of `process_update`; `none` models the `KeyError` raised by
`router_obj.dv[dest]` when `dest` is not a key. -/
def puStep (costToNb nbName : Nat) :
    Option (Table × Bool) → Nat × Entry → Option (Table × Bool)
  | none, _ => none
  | some (tb, chg), item =>
    match tb item.1 with
    | none => none
    | some cur =>
      if candCost costToNb item.2.1 < cur.1 then
        some (upd tb item.1 (some (candCost costToNb item.2.1, some nbName)), true)
      else some (tb, chg)

/-- `process_update(router_obj, neighbor_name, neighbor_vector)`: Bellman-Ford
relaxation of every advertised destination into the receiving table; returns
the mutated table and the `updated` flag, or `none` on `KeyError`. -/
def processUpdate (costToNb nbName : Nat) (items : List (Nat × Entry))
    (tb : Table) : Option (Table × Bool) :=
  items.foldl (puStep costToNb nbName) (some (tb, false))

/-- The flattened `(sender, receiver)` iteration sequence of
`for name, r in routers.items(): for nb in r.neighbors: ...`. -/
def deliveries (t : Topo) : List (Nat × Nat) :=
  t.nodes.flatMap fun s => (t.adj s).map fun nb => (s, nb)

/-- One delivery inside a round: the receiver's live table is updated with
the sender's pre-round snapshot; `updates_this_round` counts calls of
`process_update` that returned `True`. -/
def delStep (t : Topo) (snap : RState) :
    Option (RState × Nat) → Nat × Nat → Option (RState × Nat)
  | none, _ => none
  | some (st, cnt), p =>
    match processUpdate (t.w p.2 p.1) p.1 (tableItems t.nodes (snap p.1)) (st p.2) with
    | none => none
    | some (tb, chg) => some (upd st p.2 tb, if chg then cnt + 1 else cnt)

/-- One synchronous round of `simulate_rip`: snapshot all tables, then fold
every delivery over the live state. -/
def ripRound (t : Topo) (st : RState) : Option (RState × Nat) :=
  (deliveries t).foldl (delStep t st) (some (st, 0))

/-- The `for round_no in range(1, max_rounds+1)` loop of `simulate_rip`,
recursing on the remaining round budget.  On a zero-change round the run
returns early (`round_no` equals the length of `updates_per_round`); when
the budget runs out it returns `max_rounds` (again the list length). -/
def ripGo (t : Topo) : RState → List Nat → Nat → Option (RState × Nat × List Nat)
  | st, acc, 0 => some (st, acc.length, acc)
  | st, acc, rem + 1 =>
    match ripRound t st with
    | none => none
    | some (st', cnt) =>
      if cnt = 0 then some (st', (acc ++ [cnt]).length, acc ++ [cnt])
      else ripGo t st' (acc ++ [cnt]) rem

/-- `simulate_rip(G, ..., max_rounds)`: returns the routers' final tables,
the reported round count and `updates_per_round`. -/
def simulateRip (t : Topo) (maxRounds : Nat) : Option (RState × Nat × List Nat) :=
  ripGo t (initState t) [] maxRounds

/-- Entry evolution under relaxation: unchanged, or a present entry
replaced by one of strictly smaller cost. -/
def entryLe (a b : Option Entry) : Prop :=
  a = b ∨ ∃ cur v, b = some cur ∧ a = some v ∧ v.1 < cur.1

/-- Pointwise `entryLe` on tables. -/
def tblLe (a b : Table) : Prop := ∀ d, entryLe (a d) (b d)

/-- Pointwise `tblLe` on simulator states. -/
def stLe (a b : RState) : Prop := ∀ u, tblLe (a u) (b u)

/-- A table has exactly the topology's nodes as keys. -/
def hasKeys (nodes : List Nat) (tb : Table) : Prop :=
  ∀ d, (tb d).isSome = true ↔ d ∈ nodes

/-- Every router's table is keyed by the full node list. -/
def SuppInv (t : Topo) (st : RState) : Prop :=
  ∀ u ∈ t.nodes, hasKeys t.nodes (st u)

/-!
## Ground truth for the distance-vector claims: walks and shortest paths
-/

/-- Cost of a walk (vertex list), summing the link cost of each hop. -/
def walkCost (t : Topo) : List Nat → Nat
  | a :: b :: rest => t.w a b + walkCost t (b :: rest)
  | _ => 0

/-- The vertex list is a walk of the topology: consecutive vertices are
adjacent. -/
def IsWalk (t : Topo) (p : List Nat) : Prop :=
  List.Chain' (fun a b => b ∈ t.adj a) p

/-- A walk from `u` to `d` (nonempty vertex list led by `u`, ending at `d`). -/
def WalkFrom (t : Topo) (u : Nat) (p : List Nat) (d : Nat) : Prop :=
  IsWalk t p ∧ p.head? = some u ∧ p.getLast? = some d

/-- Least cost of a walk of at most `k` hops from `u` to `d` (`⊤` if none
exists): the Bellman-Ford recurrence defining true shortest-path costs. -/
def edist (t : Topo) : Nat → Nat → Nat → ℕ∞
  | 0, u, d => if u = d then 0 else ⊤
  | k + 1, u, d =>
    (t.adj u).foldl (fun acc s => min acc ((t.w u s : ℕ∞) + edist t k s d))
      (edist t k u d)

/-- Every stored finite cost is the cost of an actual walk (entries are
never fabricated; the sentinel is the only non-walk value). -/
def LBInv (t : Topo) (st : RState) : Prop :=
  ∀ u ∈ t.nodes, ∀ d c nh, st u d = some (c, nh) →
    (∃ p, WalkFrom t u p d ∧ walkCost t p = c) ∨ INF ≤ c

/-- Every router's self entry has cost zero. -/
def SelfZero (t : Topo) (st : RState) : Prop :=
  ∀ u ∈ t.nodes, ∃ nh, st u u = some (0, nh)

/-- After `k` rounds, every stored cost is at most the best `≤ k`-hop walk
cost (whenever the latter is below the sentinel). -/
def UBk (t : Topo) (k : Nat) (st : RState) : Prop :=
  ∀ u ∈ t.nodes, ∀ d ∈ t.nodes, ∀ c nh, st u d = some (c, nh) →
    ∀ D : Nat, edist t k u d = (D : ℕ∞) → D < INF → c ≤ D

/-- All stored costs equal the true shortest-path cost. -/
def OptCost (t : Topo) (st : RState) : Prop :=
  ∀ u ∈ t.nodes, ∀ d ∈ t.nodes, ∀ c nh, st u d = some (c, nh) →
    (c : ℕ∞) = edist t (t.nodes.length - 1) u d

/-- The state a zero-change round witnesses: no neighbour advertisement can
improve any entry (`process_update` would return `False` everywhere). -/
def Stable (t : Topo) (st : RState) : Prop :=
  ∀ u ∈ t.nodes, ∀ s ∈ t.adj u, ∀ d e, st s d = some e →
    ∃ cur, st u d = some cur ∧ ¬ candCost (t.w u s) e.1 < cur.1

/-!
## Link-state simulator (`ospf_sim.py` / `isis_sim.py`)

A link-state database maps a link id (sorted endpoint pair) to a
`(cost, seq, origin)` record.  The two scripts' router classes and flooding
loops are line-for-line identical except for the round cap
(`MAX_FLOOD_ROUNDS`: 50 for OSPF, 60 for IS-IS), so they share one core.
-/

/-- An LSDB record `{"cost":..., "seq":..., "origin":...}`. -/
structure LsRec where
  cost : Nat
  seq : Nat
  origin : Nat
deriving DecidableEq, Repr

/-- A link id: endpoint pair, kept sorted as by `tuple(sorted(link_id))`. -/
abbrev LinkId := Nat × Nat

/-- `tuple(sorted((u, v)))`. -/
def sortPair (u v : Nat) : LinkId := if u ≤ v then (u, v) else (v, u)

/-- A link-state database; `none` means no record for the link id. -/
abbrev Lsdb := LinkId → Option LsRec

/-- Flooding network: router names (`routers.items()` order), neighbour
lists, and the link-id iteration order of the database dictionaries. -/
structure FloodNet where
  names : List Nat
  nbrs : Nat → List Nat
  links : List LinkId

/-- State of the flooding simulation: router name to database. -/
abbrev FState := Nat → Lsdb

/-- Store a record into a database (dictionary assignment). -/
def dbPut (db : Lsdb) (k : LinkId) (r : LsRec) : Lsdb :=
  fun x => if x = k then some r else db x

/-- `OSPFRouter.receive_lsa` / `ISISRouter.receive_lsp`: accept and store a
record if no record exists for its link id or its sequence number is
strictly greater than the stored one; report whether the database changed. -/
def receiveLsa (db : Lsdb) (k : LinkId) (r : LsRec) : Lsdb × Bool :=
  match db k with
  | none => (dbPut db k r, true)
  | some ex => if ex.seq < r.seq then (dbPut db k r, true) else (db, false)

/-- `ISISRouter.receive_lsp`: textually the same acceptance rule as
`OSPFRouter.receive_lsa`. -/
def receiveLsp (db : Lsdb) (k : LinkId) (r : LsRec) : Lsdb × Bool :=
  match db k with
  | none => (dbPut db k r, true)
  | some ex => if ex.seq < r.seq then (dbPut db k r, true) else (db, false)

/-- The acceptance condition of `receive_lsa` / `receive_lsp` as a
standalone test: `existing is None or lsa.seq > existing["seq"]`. -/
def lsaAccepts (db : Lsdb) (k : LinkId) (r : LsRec) : Bool :=
  match db k with
  | none => true
  | some ex => decide (ex.seq < r.seq)

/-- The `items()` view of a database along the global link order. -/
def dbItems (links : List LinkId) (db : Lsdb) : List (LinkId × LsRec) :=
  links.filterMap fun k => (db k).map fun r => (k, r)

/-- The flattened `(sender, receiver)` sequence of the flooding loops. -/
def floodPairs (net : FloodNet) : List (Nat × Nat) :=
  net.names.flatMap fun s => (net.nbrs s).map fun nb => (s, nb)

/-- Processing of one received record inside the flooding inner loop
(`changed` bumps the round's advertisement counter). -/
def fdStep (acc : Lsdb × Nat) (it : LinkId × LsRec) : Lsdb × Nat :=
  let r := receiveLsa acc.1 it.1 it.2
  (r.1, if r.2 then acc.2 + 1 else acc.2)

/-- Deliver one sender snapshot to one receiver database, counting accepted
records. -/
def floodDeliver (db : Lsdb) (items : List (LinkId × LsRec)) : Lsdb × Nat :=
  items.foldl fdStep (db, 0)

/-- One delivery of the flooding round: the live receiver database absorbs
the sender's pre-round snapshot. -/
def frStep (net : FloodNet) (st : FState) (acc : FState × Nat) (p : Nat × Nat) :
    FState × Nat :=
  let r := floodDeliver (acc.1 p.2) (dbItems net.links (st p.1))
  (upd acc.1 p.2 r.1, acc.2 + r.2)

/-- One synchronous flooding round: every router sends its pre-round
snapshot to every neighbour; receivers mutate live. -/
def floodRound (net : FloodNet) (st : FState) : FState × Nat :=
  (floodPairs net).foldl (frStep net st) (st, 0)

/-- Reachability along the flooding delivery relation (a step exists from a
router to each of its neighbours). -/
def Reaches (net : FloodNet) : Nat → Nat → Prop :=
  Relation.ReflTransGen fun a b => a ∈ net.names ∧ b ∈ net.nbrs a

/-- A flooding state in which every delivery of a round is rejected (the
zero-change termination condition). -/
def Quiescent (net : FloodNet) (st : FState) : Prop :=
  ∀ p ∈ floodPairs net, ∀ it ∈ dbItems net.links (st p.1),
    receiveLsa (st p.2) it.1 it.2 = (st p.2, false)

/-- The `while True` flooding loop: run a round, append its advertisement
count, stop when the round changed nothing or `rounds >= maxR`. -/
def floodGo (net : FloodNet) (maxR : Nat) :
    FState → Nat → List Nat → Nat → FState × Nat × List Nat
  | st, rounds, advs, 0 => (st, rounds, advs)
  | st, rounds, advs, fuel + 1 =>
    let r := floodRound net st
    if r.2 = 0 ∨ maxR ≤ rounds + 1 then (r.1, rounds + 1, advs ++ [r.2])
    else floodGo net maxR r.1 (rounds + 1) (advs ++ [r.2]) fuel

/-- Entry point of the flooding loop (`maxR + 1` fuel always suffices since
the loop stops no later than round `max 1 maxR`). -/
def floodRun (net : FloodNet) (maxR : Nat) (st : FState) : FState × Nat × List Nat :=
  floodGo net maxR st 0 [] (maxR + 1)

/-- Preloading of `initial_lsas` into the routers' databases at the top of
`flood_lsas` / `flood_lsps` (unconditional dictionary assignment). -/
def preload (names : List Nat) (initial : Nat → List (LinkId × LsRec))
    (st : FState) : FState :=
  names.foldl
    (fun cur n => upd cur n ((initial n).foldl (fun d it => dbPut d it.1 it.2) (cur n)))
    st

/-- `flood_lsas(routers, initial_lsas)` (`MAX_FLOOD_ROUNDS = 50`). -/
def floodLsas (net : FloodNet) (st : FState)
    (initial : Nat → List (LinkId × LsRec)) : FState × Nat × List Nat :=
  floodRun net 50 (preload net.names initial st)

/-- `flood_lsps(routers, initial_lsps)` (`MAX_FLOOD_ROUNDS = 60`). -/
def floodLsps (net : FloodNet) (st : FState)
    (initial : Nat → List (LinkId × LsRec)) : FState × Nat × List Nat :=
  floodRun net 60 (preload net.names initial st)

/-- `originate_lsas` / `originate_lsps`: one record per incident link, with
this router as origin and sequence numbers 1, 2, ... from the local
counter, cost taken from the graph edge. -/
def originateLsas (t : Topo) (name : Nat) : List (LinkId × LsRec) :=
  (t.adj name).enum.map fun iv =>
    (sortPair name iv.2, { cost := t.w name iv.2, seq := iv.1 + 1, origin := name })

/-- The flooding network the OSPF/IS-IS mains build from a topology. -/
def netOf (t : Topo) : FloodNet :=
  { names := t.nodes
    nbrs := t.adj
    links := (t.nodes.flatMap fun n => (t.adj n).map fun v => sortPair n v).dedup }

/-- Databases right after every router ran `originate_lsas` (records are
stored into the originator's own database as they are created). -/
def originState (t : Topo) : FState := fun n =>
  if n ∈ t.nodes then
    (originateLsas t n).foldl (fun d it => dbPut d it.1 it.2) (fun _ => none)
  else fun _ => none

/-- The OSPF main flow: originate, then flood until quiescent. -/
def ospfRun (t : Topo) : FState × Nat × List Nat :=
  floodLsas (netOf t) (originState t) (originateLsas t)

/-- The IS-IS main flow. -/
def isisRun (t : Topo) : FState × Nat × List Nat :=
  floodLsps (netOf t) (originState t) (originateLsas t)

/-!
## Path-vector simulator (`bgp_sim.py`)

A local RIB maps a prefix id to an AS-path (list of AS numbers).
-/

/-- An AS-path. -/
abbrev Path := List Nat

/-- A local RIB; `none` means the prefix is unknown. -/
abbrev Rib := Nat → Option Path

/-- BGP network: AS numbers (`as_nodes.items()` order), neighbour lists and
the prefix iteration order of the RIB dictionaries. -/
structure BNet where
  asns : List Nat
  nbrs : Nat → List Nat
  pfxs : List Nat

/-- State: AS number to local RIB. -/
abbrev BState := Nat → Rib

/-- Python's `str` of a nonnegative int, as a character list. -/
def asnStr (n : Nat) : List Char := (Nat.repr n).data

/-- Python string `<`: lexicographic on characters (by code point). -/
def pyStrLt : List Char → List Char → Bool
  | [], [] => false
  | [], _ :: _ => true
  | _ :: _, [] => false
  | x :: xs, y :: ys => if x < y then true else if y < x then false else pyStrLt xs ys

/-- Python list-of-strings `<`: lexicographic with elementwise string `<`. -/
def pyStrListLt : List (List Char) → List (List Char) → Bool
  | [], [] => false
  | [], _ :: _ => true
  | _ :: _, [] => false
  | x :: xs, y :: ys => if x = y then pyStrListLt xs ys else pyStrLt x y

/-- Modelled from the spec: the path comparison the specification asks for
on equal lengths — "the candidate's sequence of identifiers compares
lexicographically smaller than the current path's sequence of identifiers",
i.e. lexicographic order on the identifiers themselves.  Used only to
compare the specified tie-break against the source's string-based one. -/
def idLexLt : List Nat → List Nat → Bool
  | [], [] => false
  | [], _ :: _ => true
  | _ :: _, [] => false
  | x :: xs, y :: ys => if x < y then true else if y < x then false else idLexLt xs ys

/-- The `better(new, old)` closure of `ASNode.receive_update`: no current
path, or strictly shorter, or same length and
`list(map(str, new)) < list(map(str, old))`. -/
def better (nw : Path) (old : Option Path) : Bool :=
  match old with
  | none => true
  | some o =>
    if nw.length < o.length then true
    else if nw.length = o.length ∧ pyStrListLt (nw.map asnStr) (o.map asnStr) then true
    else false

/-- `ASNode.receive_update(from_asn, prefix, path)` for the node with AS
number `asn` and RIB `rib`: reject on loop, otherwise install the advertised
path verbatim when `better` says so. -/
def receiveUpdate (asn : Nat) (rib : Rib) (_fromAsn pfx : Nat) (path : Path) :
    Rib × Bool :=
  if asn ∈ path then (rib, false)
  else if better path (rib pfx) then (upd rib pfx (some path), true)
  else (rib, false)

/-- The `items()` view of a RIB snapshot along the global prefix order. -/
def ribItems (pfxs : List Nat) (rib : Rib) : List (Nat × Path) :=
  pfxs.filterMap fun p => (rib p).map fun pa => (p, pa)

/-- One synchronous round of `bgp_propagate`: every AS advertises every
prefix of its pre-round snapshot to all neighbours; the advertised path is
`[sender] + [p for p in path if p != sender]`; `any_change` collects the
acceptance flags. -/
def bgpRound (net : BNet) (st : BState) : BState × Bool :=
  net.asns.foldl
    (fun acc asn =>
      (ribItems net.pfxs (st asn)).foldl
        (fun acc2 it =>
          if it.2.length = 0 then acc2
          else
            let adv := asn :: it.2.filter (fun q => ¬ q = asn)
            (net.nbrs asn).foldl
              (fun acc3 nb =>
                let r := receiveUpdate nb (acc3.1 nb) asn it.1 adv
                (upd acc3.1 nb r.1, acc3.2 || r.2))
              acc2)
        acc)
    (st, false)

/-- The round loop of `bgp_propagate`: `rounds` is incremented each
iteration and is the function's only report; the loop breaks when a round
changes nothing or the budget is spent. -/
def bgpGo (net : BNet) : BState → Nat → Nat → BState × Nat
  | st, rounds, 0 => (st, rounds)
  | st, rounds, fuel + 1 =>
    let r := bgpRound net st
    if r.2 then bgpGo net r.1 (rounds + 1) fuel else (r.1, rounds + 1)

/-- `bgp_propagate(as_nodes, max_rounds)`: returns the nodes' final RIBs
(mutated in place in the source) and the returned round count. -/
def bgpPropagate (net : BNet) (st : BState) (maxRounds : Nat) : BState × Nat :=
  bgpGo net st 0 maxRounds

/-- `simulate_withdrawal(as_nodes, withdrawing_asn, prefix)`: delete the
prefix from the origin's RIB if present and report whether it was. -/
def simulateWithdrawal (st : BState) (asn pfx : Nat) : BState × Bool :=
  match st asn pfx with
  | some _ => (upd st asn (upd (st asn) pfx none), true)
  | none => (st, false)

/-- Append `k` when not already present (dictionary `setdefault` keying). -/
def addKey (acc : List Nat) (k : Nat) : List Nat :=
  if k ∈ acc then acc else acc ++ [k]

/-- One edge's contribution to the `build_as_nodes` adjacency of `n`:
`adj.setdefault(a, []).append(b); adj.setdefault(b, []).append(a)`. -/
def bgpAdjStep (n : Nat) (acc : List Nat) (e : Nat × Nat) : List Nat :=
  let acc1 := if e.1 = n then acc ++ [e.2] else acc
  if e.2 = n then acc1 ++ [e.1] else acc1

/-- Adjacency built by `build_as_nodes`: plain list `append` for each edge
direction (no validation: self-loops and duplicates are kept). -/
def bgpAdj (edges : List (Nat × Nat)) (n : Nat) : List Nat :=
  edges.foldl (bgpAdjStep n) []

/-- Key order of the `adj` dictionary (first appearance in the edge list). -/
def bgpAdjKeys (edges : List (Nat × Nat)) : List Nat :=
  edges.foldl (fun acc e => addKey (addKey acc e.1) e.2) []

/-- Key order of `as_nodes`: `nodes_def` keys first, then adjacency-only
nodes. -/
def bgpAsns (nodesDef : List (Nat × List Nat)) (edges : List (Nat × Nat)) : List Nat :=
  (bgpAdjKeys edges).foldl addKey (nodesDef.map Prod.fst)

/-- Originated prefixes of an AS under `nodes_def`. -/
def origPfxsOf (nodesDef : List (Nat × List Nat)) (asn : Nat) : List Nat :=
  nodesDef.foldl (fun acc nd => if nd.1 = asn then nd.2 else acc) []

/-- `build_as_nodes(nodes_def, edges)`: the network (with the global prefix
iteration order) and the initial state in which every AS installs path
`[self]` for each prefix it originates. -/
def buildAsNodes (nodesDef : List (Nat × List Nat)) (edges : List (Nat × Nat)) :
    BNet × BState :=
  ({ asns := bgpAsns nodesDef edges
     nbrs := bgpAdj edges
     pfxs := (nodesDef.flatMap Prod.snd).dedup },
   fun asn => fun p => if p ∈ origPfxsOf nodesDef asn then some [asn] else none)

/-!
## Concrete scenario inputs (used by counterexamples and witnesses)
-/

/-- Scenario A: the 3-node all-cost-1 triangle. -/
def triangleT : Topo := mkTopoHop [1, 2, 3] [(1, 2, 1), (1, 3, 1), (2, 3, 1)]

/-- A linear 3-node chain with unit costs. -/
def pathT : Topo := mkTopoHop [1, 2, 3] [(1, 2, 1), (2, 3, 1)]

/-- A single link `1 - 2` of cost 1. -/
def twoT : Topo := mkTopo [1, 2] [(1, 2, 1)]

/-- Scenario C: linear AS chain `1 - 2 - 3`, the middle AS originates
prefix 2. -/
def chainNet : BNet × BState := buildAsNodes [(1, []), (2, [2]), (3, [])] [(1, 2), (2, 3)]

/-- Two peered ASes originating nothing. -/
def idleNet : BNet × BState := buildAsNodes [(1, []), (2, [])] [(1, 2)]

/-- Two peered ASes; AS 1 originates prefix 1. -/
def oneNet : BNet × BState := buildAsNodes [(1, [1]), (2, [])] [(1, 2)]

/-- A malformed AS topology: a single self-loop edge. -/
def loopNet : BNet × BState := buildAsNodes [] [(1, 1)]

/-- Flooding fixture: two routers joined by one link. -/
def wNet : FloodNet :=
  { names := [1, 2]
    nbrs := fun n => if n = 1 then [2] else if n = 2 then [1] else []
    links := [(1, 2)] }

/-- Origination fixture: each endpoint originates the shared link with
sequence number 1 and cost 5, naming itself as origin. -/
def wInitial : Nat → List (LinkId × LsRec) := fun n =>
  if n = 1 then [((1, 2), { cost := 5, seq := 1, origin := 1 })]
  else if n = 2 then [((1, 2), { cost := 5, seq := 1, origin := 2 })]
  else []

/-- Empty databases before preloading. -/
def wSt0 : FState := fun _ => fun _ => none

/-!
## Basic lemmas about dictionary updates and entry evolution
-/

theorem upd_eq {α : Type} (f : Nat → α) (k : Nat) (v : α) : upd f k v k = v := by
  simp [upd]

theorem upd_ne {α : Type} (f : Nat → α) (k : Nat) (v : α) {x : Nat} (h : x ≠ k) :
    upd f k v x = f x := by
  simp [upd, h]

theorem upd_self {α : Type} (f : Nat → α) (k : Nat) : upd f k (f k) = f := by
  funext x
  by_cases h : x = k <;> simp [upd, h]

theorem entryLe_refl (a : Option Entry) : entryLe a a := Or.inl rfl

theorem entryLe_trans {a b c : Option Entry} (h1 : entryLe a b) (h2 : entryLe b c) :
    entryLe a c := by
  rcases h2 with rfl | ⟨cur, v, rfl, rfl, hlt⟩
  · exact h1
  · rcases h1 with rfl | ⟨cur2, v2, hb, ha, hlt2⟩
    · exact Or.inr ⟨cur, v, rfl, rfl, hlt⟩
    · rcases Option.some.injEq _ _ ▸ hb with h
      cases hb
      exact Or.inr ⟨cur, v2, rfl, ha, hlt2.trans hlt⟩

theorem entryLe_isSome {a b : Option Entry} (h : entryLe a b) : a.isSome = b.isSome := by
  rcases h with rfl | ⟨cur, v, rfl, rfl, _⟩ <;> rfl

theorem entryLe_cost {a b : Option Entry} (h : entryLe a b) {cur : Entry}
    (hb : b = some cur) : ∃ v, a = some v ∧ v.1 ≤ cur.1 := by
  rcases h with rfl | ⟨cur2, v, hb2, ha, hlt⟩
  · exact ⟨cur, hb, le_refl _⟩
  · rw [hb] at hb2
    cases hb2
    exact ⟨v, ha, le_of_lt hlt⟩

theorem tblLe_refl (a : Table) : tblLe a a := fun _ => entryLe_refl _

theorem tblLe_trans {a b c : Table} (h1 : tblLe a b) (h2 : tblLe b c) : tblLe a c :=
  fun d => entryLe_trans (h1 d) (h2 d)

theorem stLe_refl (a : RState) : stLe a a := fun _ => tblLe_refl _

theorem stLe_trans {a b c : RState} (h1 : stLe a b) (h2 : stLe b c) : stLe a c :=
  fun u => tblLe_trans (h1 u) (h2 u)

/-!
## Lemmas about the `process_update` fold
-/

theorem puFold_none (c nb : Nat) (items : List (Nat × Entry)) :
    items.foldl (puStep c nb) none = none := by
  induction items with
  | nil => rfl
  | cons it rest ih => simpa [puStep] using ih

theorem puStep_some (c nb : Nat) (tb : Table) (b : Bool) (it : Nat × Entry)
    {r : Table × Bool} (h : puStep c nb (some (tb, b)) it = some r) :
    ∃ cur, tb it.1 = some cur ∧
      ((candCost c it.2.1 < cur.1 ∧
          r = (upd tb it.1 (some (candCost c it.2.1, some nb)), true)) ∨
        (¬ candCost c it.2.1 < cur.1 ∧ r = (tb, b))) := by
  simp only [puStep] at h
  split at h
  · exact absurd h (by simp)
  · rename_i cur hcur
    split at h
    · rename_i hlt
      cases h
      exact ⟨cur, hcur, Or.inl ⟨hlt, rfl⟩⟩
    · rename_i hlt
      cases h
      exact ⟨cur, hcur, Or.inr ⟨hlt, rfl⟩⟩

theorem puFold_some_of_some {c nb : Nat} {items : List (Nat × Entry)}
    {acc : Option (Table × Bool)} {r : Table × Bool}
    (h : items.foldl (puStep c nb) acc = some r) : ∃ a, acc = some a := by
  cases acc with
  | none => rw [puFold_none] at h; exact absurd h (by simp)
  | some a => exact ⟨a, rfl⟩

theorem puFold_tblLe (c nb : Nat) :
    ∀ (items : List (Nat × Entry)) (tb : Table) (b : Bool) (r : Table × Bool),
      items.foldl (puStep c nb) (some (tb, b)) = some r → tblLe r.1 tb := by
  intro items
  induction items with
  | nil => intro tb b r h; cases h; exact tblLe_refl _
  | cons it rest ih =>
    intro tb b r h
    rw [List.foldl_cons] at h
    obtain ⟨⟨tb1, b1⟩, hstep⟩ := puFold_some_of_some h
    rw [hstep] at h
    obtain ⟨cur, hcur, hcase⟩ := puStep_some c nb tb b it hstep
    have hle : tblLe tb1 tb := by
      rcases hcase with ⟨hlt, heq⟩ | ⟨hlt, heq⟩
      · cases heq
        intro d
        by_cases hd : d = it.1
        · subst hd
          exact Or.inr ⟨cur, _, hcur, upd_eq _ _ _, hlt⟩
        · rw [upd_ne _ _ _ hd]
          exact entryLe_refl _
      · cases heq; exact tblLe_refl _
    exact tblLe_trans (ih tb1 b1 r h) hle

theorem puFold_flag_true (c nb : Nat) :
    ∀ (items : List (Nat × Entry)) (tb : Table) (r : Table × Bool),
      items.foldl (puStep c nb) (some (tb, true)) = some r → r.2 = true := by
  intro items
  induction items with
  | nil => intro tb r h; cases h; rfl
  | cons it rest ih =>
    intro tb r h
    rw [List.foldl_cons] at h
    obtain ⟨⟨tb1, b1⟩, hstep⟩ := puFold_some_of_some h
    rw [hstep] at h
    obtain ⟨cur, hcur, hcase⟩ := puStep_some c nb tb true it hstep
    rcases hcase with ⟨_, heq⟩ | ⟨_, heq⟩ <;> cases heq <;> exact ih _ _ h

theorem puFold_false (c nb : Nat) :
    ∀ (items : List (Nat × Entry)) (tb : Table) (b : Bool) (r : Table × Bool),
      items.foldl (puStep c nb) (some (tb, b)) = some r → r.2 = false →
      r = (tb, b) := by
  intro items
  induction items with
  | nil => intro tb b r h _; cases h; rfl
  | cons it rest ih =>
    intro tb b r h hfalse
    rw [List.foldl_cons] at h
    obtain ⟨⟨tb1, b1⟩, hstep⟩ := puFold_some_of_some h
    rw [hstep] at h
    obtain ⟨cur, hcur, hcase⟩ := puStep_some c nb tb b it hstep
    rcases hcase with ⟨_, heq⟩ | ⟨_, heq⟩
    · cases heq
      exact absurd (puFold_flag_true c nb rest _ r h) (by simp [hfalse])
    · cases heq
      exact ih _ _ _ h hfalse

theorem puFold_quiescent (c nb : Nat) :
    ∀ (items : List (Nat × Entry)) (tb : Table) (b : Bool) (r : Table × Bool),
      items.foldl (puStep c nb) (some (tb, b)) = some r → r.2 = false →
      ∀ it ∈ items, ∃ cur, tb it.1 = some cur ∧ ¬ candCost c it.2.1 < cur.1 := by
  intro items
  induction items with
  | nil => intro tb b r _ _ it hit; cases hit
  | cons hd rest ih =>
    intro tb b r h hfalse it hit
    rw [List.foldl_cons] at h
    obtain ⟨⟨tb1, b1⟩, hstep⟩ := puFold_some_of_some h
    rw [hstep] at h
    obtain ⟨cur, hcur, hcase⟩ := puStep_some c nb tb b hd hstep
    rcases hcase with ⟨_, heq⟩ | ⟨hnlt, heq⟩
    · cases heq
      exact absurd (puFold_flag_true c nb rest _ r h) (by simp [hfalse])
    · cases heq
      rcases List.mem_cons.mp hit with rfl | hmem
      · exact ⟨cur, hcur, hnlt⟩
      · exact ih tb b r h hfalse it hmem

theorem puFold_success (c nb : Nat) :
    ∀ (items : List (Nat × Entry)) (tb : Table) (b : Bool),
      (∀ it ∈ items, (tb it.1).isSome = true) →
      ∃ r, items.foldl (puStep c nb) (some (tb, b)) = some r := by
  intro items
  induction items with
  | nil => intro tb b _; exact ⟨(tb, b), rfl⟩
  | cons it rest ih =>
    intro tb b hkeys
    obtain ⟨cur, hcur⟩ := Option.isSome_iff_exists.mp (hkeys it (List.mem_cons_self it rest))
    rw [List.foldl_cons]
    by_cases hlt : candCost c it.2.1 < cur.1
    · have hstep : puStep c nb (some (tb, b)) it =
          some (upd tb it.1 (some (candCost c it.2.1, some nb)), true) := by
        simp only [puStep]
        rw [hcur]
        simp [hlt]
      rw [hstep]
      refine ih _ _ fun it' hit' => ?_
      by_cases hd : it'.1 = it.1
      · rw [hd, upd_eq]; rfl
      · rw [upd_ne _ _ _ hd]
        exact hkeys it' (List.mem_cons_of_mem _ hit')
    · have hstep : puStep c nb (some (tb, b)) it = some (tb, b) := by
        simp only [puStep]
        rw [hcur]
        simp [hlt]
      rw [hstep]
      exact ih _ _ fun it' hit' => hkeys it' (List.mem_cons_of_mem _ hit')

theorem puFold_untouched (c nb : Nat) :
    ∀ (items : List (Nat × Entry)) (tb : Table) (b : Bool) (r : Table × Bool),
      items.foldl (puStep c nb) (some (tb, b)) = some r →
      ∀ d, d ∉ items.map Prod.fst → r.1 d = tb d := by
  intro items
  induction items with
  | nil => intro tb b r h d _; cases h; rfl
  | cons it rest ih =>
    intro tb b r h d hd
    rw [List.map_cons, List.mem_cons] at hd
    push_neg at hd
    rw [List.foldl_cons] at h
    obtain ⟨⟨tb1, b1⟩, hstep⟩ := puFold_some_of_some h
    rw [hstep] at h
    obtain ⟨cur, hcur, hcase⟩ := puStep_some c nb tb b it hstep
    rcases hcase with ⟨_, heq⟩ | ⟨_, heq⟩
    · cases heq
      rw [ih _ _ _ h d hd.2, upd_ne _ _ _ hd.1]
    · cases heq
      exact ih _ _ _ h d hd.2

theorem puFold_localized (c nb : Nat) :
    ∀ (items : List (Nat × Entry)) (tb : Table) (b : Bool) (r : Table × Bool),
      items.foldl (puStep c nb) (some (tb, b)) = some r →
      (items.map Prod.fst).Nodup →
      ∀ it ∈ items, ∃ cur, tb it.1 = some cur ∧
        (candCost c it.2.1 < cur.1 →
          r.1 it.1 = some (candCost c it.2.1, some nb)) ∧
        (¬ candCost c it.2.1 < cur.1 → r.1 it.1 = tb it.1) := by
  intro items
  induction items with
  | nil => intro tb b r _ _ it hit; cases hit
  | cons hd rest ih =>
    intro tb b r h hnodup it hit
    rw [List.map_cons, List.nodup_cons] at hnodup
    rw [List.foldl_cons] at h
    obtain ⟨⟨tb1, b1⟩, hstep⟩ := puFold_some_of_some h
    rw [hstep] at h
    obtain ⟨cur, hcur, hcase⟩ := puStep_some c nb tb b hd hstep
    rcases List.mem_cons.mp hit with rfl | hmem
    · refine ⟨cur, hcur, fun hlt => ?_, fun hnlt => ?_⟩
      · have huntouched := puFold_untouched c nb rest tb1 b1 r h it.1 hnodup.1
        rcases hcase with ⟨_, heq⟩ | ⟨hnlt, _⟩
        · cases heq
          rw [huntouched, upd_eq]
        · exact absurd hlt hnlt
      · have huntouched := puFold_untouched c nb rest tb1 b1 r h it.1 hnodup.1
        rcases hcase with ⟨hlt, _⟩ | ⟨_, heq⟩
        · exact absurd hlt hnlt
        · cases heq
          rw [huntouched, hcur]
    · have hne : it.1 ≠ hd.1 := by
        intro hcontra
        exact hnodup.1 (hcontra ▸ List.mem_map_of_mem Prod.fst hmem)
      have htb1 : tb1 it.1 = tb it.1 := by
        rcases hcase with ⟨_, heq⟩ | ⟨_, heq⟩ <;> cases heq
        · exact upd_ne _ _ _ hne
        · rfl
      obtain ⟨cur', hcur', h1, h2⟩ := ih tb1 b1 r h hnodup.2 it hmem
      rw [htb1] at hcur'
      exact ⟨cur', hcur', h1, fun hnlt => (h2 hnlt).trans htb1⟩

theorem puFold_bound (c nb : Nat) :
    ∀ (items : List (Nat × Entry)) (tb : Table) (b : Bool) (r : Table × Bool),
      items.foldl (puStep c nb) (some (tb, b)) = some r →
      ∀ it ∈ items, ∀ v, r.1 it.1 = some v → v.1 ≤ candCost c it.2.1 := by
  intro items
  induction items with
  | nil => intro tb b r _ it hit; cases hit
  | cons hd rest ih =>
    intro tb b r h it hit v hv
    rw [List.foldl_cons] at h
    obtain ⟨⟨tb1, b1⟩, hstep⟩ := puFold_some_of_some h
    rw [hstep] at h
    obtain ⟨cur, hcur, hcase⟩ := puStep_some c nb tb b hd hstep
    rcases List.mem_cons.mp hit with rfl | hmem
    · have hmid : ∃ mid, tb1 it.1 = some mid ∧ mid.1 ≤ candCost c it.2.1 := by
        rcases hcase with ⟨hlt, heq⟩ | ⟨hnlt, heq⟩ <;> cases heq
        · exact ⟨_, upd_eq _ _ _, le_refl _⟩
        · exact ⟨cur, hcur, le_of_not_lt hnlt⟩
      obtain ⟨mid, hmid1, hmid2⟩ := hmid
      obtain ⟨v', hv', hvle⟩ := entryLe_cost (puFold_tblLe c nb rest tb1 b1 r h it.1) hmid1
      rw [hv] at hv'
      cases hv'
      exact le_trans hvle hmid2
    · exact ih tb1 b1 r h it hmem v hv

theorem tableItems_mem {order : List Nat} {tb : Table} {d : Nat} {e : Entry} :
    (d, e) ∈ tableItems order tb ↔ d ∈ order ∧ tb d = some e := by
  unfold tableItems
  rw [List.mem_filterMap]
  constructor
  · rintro ⟨a, ha, hfa⟩
    cases htb : tb a with
    | none => rw [htb] at hfa; exact absurd hfa (by simp)
    | some e' =>
      rw [htb] at hfa
      simp only [Option.map_some', Option.some.injEq, Prod.mk.injEq] at hfa
      obtain ⟨rfl, rfl⟩ := hfa
      exact ⟨ha, htb⟩
  · rintro ⟨hd, htb⟩
    exact ⟨d, hd, by rw [htb]; rfl⟩

/-!
## Claim theorems: distance-vector acceptance (C3, C7)
-/

/-- C3: in `process_update`, for every advertised destination the receiving
router's entry is replaced exactly when the candidate cost is strictly less
than the current cost; the new entry is `(candidate, advertising neighbour)`;
ties and worse candidates leave the entry unchanged, and destinations not in
the advertisement are untouched.  For a finite advertised cost the candidate
is link cost plus advertised cost. -/
theorem process_update_relaxation (costToNb nbName : Nat)
    (items : List (Nat × Entry)) (tb : Table) (res : Table × Bool)
    (hres : processUpdate costToNb nbName items tb = some res)
    (hnodup : (items.map Prod.fst).Nodup) :
    (∀ it ∈ items, ∃ cur, tb it.1 = some cur ∧
      (candCost costToNb it.2.1 < cur.1 →
        res.1 it.1 = some (candCost costToNb it.2.1, some nbName)) ∧
      (¬ candCost costToNb it.2.1 < cur.1 → res.1 it.1 = tb it.1) ∧
      (it.2.1 < INF → candCost costToNb it.2.1 = costToNb + it.2.1)) ∧
    (∀ d, d ∉ items.map Prod.fst → res.1 d = tb d) := by
  constructor
  · intro it hit
    obtain ⟨cur, hcur, h1, h2⟩ :=
      puFold_localized costToNb nbName items tb false res hres hnodup it hit
    refine ⟨cur, hcur, h1, h2, fun hfin => ?_⟩
    unfold candCost
    rw [if_neg (not_le_of_lt hfin)]
  · exact puFold_untouched costToNb nbName items tb false res hres

theorem process_update_relaxation_witness :
    ((([((5 : Nat), ((3 : Nat), (none : Option Nat)))] : List (Nat × Entry)).map
        Prod.fst).Nodup) ∧
    (upd (fun d => if d = 5 then some ((7 : Nat), (none : Option Nat)) else none) 5
        (some (5, some 9))) 4
      = (fun d => if d = 5 then some ((7 : Nat), (none : Option Nat)) else none) 4 := by
  refine ⟨by decide, ?_⟩
  exact (process_update_relaxation 2 9
    [((5 : Nat), ((3 : Nat), (none : Option Nat)))]
    (fun d => if d = 5 then some ((7 : Nat), (none : Option Nat)) else none)
    _ rfl (by decide)).2 4 (by decide)

/-- C7: distance-vector arithmetic saturates at the `INF` sentinel: an
advertised cost at or above `INF` yields candidate exactly `INF`; finite
candidates are the plain sum and never compare below either summand (no
wrap-around); and a finite entry is never displaced by a sentinel candidate
(its cost can only stay or shrink, remaining below `INF`). -/
theorem dv_inf_saturation :
    (∀ costToNb nbrCost : Nat, INF ≤ nbrCost → candCost costToNb nbrCost = INF) ∧
    (∀ costToNb nbrCost : Nat, nbrCost < INF →
      candCost costToNb nbrCost = costToNb + nbrCost ∧
      nbrCost ≤ candCost costToNb nbrCost ∧ costToNb ≤ candCost costToNb nbrCost) ∧
    (∀ costToNb nbName items tb res, processUpdate costToNb nbName items tb = some res →
      ∀ d cur, tb d = some cur → cur.1 < INF →
        ∃ v, res.1 d = some v ∧ v.1 ≤ cur.1 ∧ v.1 < INF) := by
  refine ⟨fun c nbr h => by unfold candCost; rw [if_pos h], ?_, ?_⟩
  · intro c nbr h
    have heq : candCost c nbr = c + nbr := by
      unfold candCost
      rw [if_neg (not_le_of_lt h)]
    exact ⟨heq, heq ▸ Nat.le_add_left _ _, heq ▸ Nat.le_add_right _ _⟩
  · intro c nb items tb res hres d cur hcur hfin
    obtain ⟨v, hv, hle⟩ :=
      entryLe_cost (puFold_tblLe c nb items tb false res hres d) hcur
    exact ⟨v, hv, hle, lt_of_le_of_lt hle hfin⟩

theorem dv_inf_saturation_witness :
    (INF ≤ INF ∧ candCost 1 INF = INF) ∧
    ((3 : Nat) < INF ∧ candCost 2 3 = 2 + 3) := by
  refine ⟨⟨le_refl _, dv_inf_saturation.1 1 INF (le_refl _)⟩, ⟨by decide, ?_⟩⟩
  exact (dv_inf_saturation.2.1 2 3 (by decide)).1

/-!
## Claim theorems: link-state acceptance (C6)
-/

/-- C6: `receive_lsa` (OSPF) and `receive_lsp` (IS-IS) mutate the database
and report a change exactly when no record exists for the link id or the
received sequence number is strictly greater than the stored one; otherwise
the database is returned unchanged with no change reported. -/
theorem link_state_acceptance (db : Lsdb) (k : LinkId) (r : LsRec) :
    receiveLsa db k r =
      (if lsaAccepts db k r then (dbPut db k r, true) else (db, false)) ∧
    receiveLsp db k r = receiveLsa db k r ∧
    (lsaAccepts db k r = true ↔ db k = none ∨ ∃ ex, db k = some ex ∧ ex.seq < r.seq) := by
  refine ⟨?_, rfl, ?_⟩
  · cases hdb : db k with
    | none => simp [receiveLsa, lsaAccepts, hdb]
    | some ex =>
      by_cases hseq : ex.seq < r.seq <;>
        simp [receiveLsa, lsaAccepts, hdb, hseq]
  · cases hdb : db k with
    | none => simp [lsaAccepts, hdb]
    | some ex => simp [lsaAccepts, hdb]

/-!
## Claim theorems: path-vector acceptance (C4)
-/

/-- C4 (corrected): `receive_update` rejects unconditionally when the
receiver's AS number occurs in the advertised path; otherwise it installs
the path verbatim exactly when `better` holds, where `better` prefers a
missing current path, then strictly fewer hops, then — on equal length —
the lexicographically smaller list of *decimal string representations* of
the AS numbers (Python's `list(map(str, new)) < list(map(str, old))`). -/
theorem receive_update_selection (asn : Nat) (rib : Rib) (fromAsn pfx : Nat)
    (path : Path) :
    (asn ∈ path → receiveUpdate asn rib fromAsn pfx path = (rib, false)) ∧
    (asn ∉ path →
      receiveUpdate asn rib fromAsn pfx path =
        (if better path (rib pfx) then (upd rib pfx (some path), true)
         else (rib, false))) ∧
    (better path none = true) ∧
    (∀ o : Path, better path (some o) = true ↔
      (path.length < o.length ∨
        (path.length = o.length ∧
          pyStrListLt (path.map asnStr) (o.map asnStr) = true))) := by
  refine ⟨fun h => by simp [receiveUpdate, h], fun h => by simp [receiveUpdate, h], rfl, ?_⟩
  intro o
  unfold better
  by_cases hlen : path.length < o.length
  · simp [hlen]
  · by_cases heq : path.length = o.length
    · by_cases hlex : pyStrListLt (path.map asnStr) (o.map asnStr) = true
      · simp [hlen, heq, hlex]
      · simp [hlen, heq, hlex]
    · simp [hlen, heq]

theorem receive_update_selection_witness :
    ((7 : Nat) ∉ ([2, 5] : Path)) ∧
    receiveUpdate 7 (upd (fun _ => none) 0 (some [10, 5])) 2 0 [2, 5] =
      (if better [2, 5] ((upd (fun _ => none) 0 (some [10, 5])) 0) then
        (upd (upd (fun _ => none) 0 (some [10, 5])) 0 (some [2, 5]), true)
       else (upd (fun _ => none) 0 (some [10, 5]), false)) := by
  refine ⟨by decide, ?_⟩
  exact (receive_update_selection 7 (upd (fun _ => none) 0 (some [10, 5])) 2 0
    [2, 5]).2.1 (by decide)

/-- C4 counterexample: the advertised path `[2, 5]` ties `[10, 5]` on
length and is lexicographically smaller as a sequence of identifiers
(2 < 10), yet the code rejects it, because Python compares the decimal
strings and `"10" < "2"`. -/
theorem receive_update_strcmp_cex :
    ((receiveUpdate 7 (upd (fun _ => none) 0 (some [10, 5])) 2 0 [2, 5]).2 = false) ∧
    ((receiveUpdate 7 (upd (fun _ => none) 0 (some [10, 5])) 2 0 [2, 5]).1 0 =
      some [10, 5]) ∧
    ((7 : Nat) ∉ ([2, 5] : Path)) ∧
    (([2, 5] : Path).length = ([10, 5] : Path).length) ∧
    (idLexLt [2, 5] [10, 5] = true) ∧
    (better [2, 5] (some [10, 5]) = false) := by decide

/-!
## Concrete counterexample and evidence runs (C1, C2, C5, C8, C9)
-/

/-- C1 counterexample: `bgp_propagate`'s report (the returned round count)
is identical for a run that converged in its single allowed round (no
changes) and one that exhausted the budget with changes still occurring. -/
theorem bgp_report_collapse_cex :
    ((bgpPropagate idleNet.1 idleNet.2 1).2 = 1) ∧
    ((bgpPropagate oneNet.1 oneNet.2 1).2 = 1) ∧
    ((bgpRound idleNet.1 idleNet.2).2 = false) ∧
    ((bgpRound oneNet.1 oneNet.2).2 = true) := by decide

/-- C2 counterexample: the 1-2 link flood converges (single zero-change
round) with record-for-record *different* databases: each endpoint keeps
its own origin for the shared link, because the two originations carry the
same sequence number and equal sequence numbers are rejected. -/
theorem flood_origin_mismatch_cex :
    ((ospfRun twoT).2.2 = [0]) ∧
    ((ospfRun twoT).1 1 (1, 2) = some { cost := 1, seq := 1, origin := 1 }) ∧
    ((ospfRun twoT).1 2 (1, 2) = some { cost := 1, seq := 1, origin := 2 }) ∧
    ((netOf twoT).nbrs 1 = [2]) ∧ ((netOf twoT).nbrs 2 = [1]) ∧
    (({ cost := 1, seq := 1, origin := 1 } : LsRec) ≠
      { cost := 1, seq := 1, origin := 2 }) := by decide

/-- C5 counterexample: on the connected, positive-cost 3-node chain with a
round budget of 1, `simulate_rip` stops after one round that still recorded
2 changes — the budget is exhausted with no zero-change round, although the
topology satisfies every hypothesis of the claim. -/
theorem rip_budget_exhaustion_cex :
    (((simulateRip pathT 1).map fun r => (r.2.1, r.2.2)) = some (1, [2])) ∧
    (pathT.nodes = [1, 2, 3]) ∧
    (pathT.adj 1 = [2]) ∧ (pathT.adj 2 = [1, 3]) ∧ (pathT.adj 3 = [2]) ∧
    (pathT.w 1 2 = 1) ∧ (pathT.w 2 3 = 1) ∧
    (edist pathT 2 1 3 = (2 : ℕ∞)) := by decide

/-- C8: after the converged chain run, withdrawing prefix 2 from its origin
(AS 2) and re-running propagation to quiescence leaves both endpoints with
the stale path `[2]` installed — no mechanism removes entries once no
advertisement supports them (loop prevention blocks the only refresh). -/
theorem bgp_withdrawal_stale_paths :
    ((bgpPropagate chainNet.1 chainNet.2 50).2 = 2) ∧
    ((bgpPropagate chainNet.1 chainNet.2 50).1 1 2 = some [2]) ∧
    ((bgpPropagate chainNet.1 chainNet.2 50).1 3 2 = some [2]) ∧
    ((simulateWithdrawal (bgpPropagate chainNet.1 chainNet.2 50).1 2 2).2 = true) ∧
    ((bgpPropagate chainNet.1
        (simulateWithdrawal (bgpPropagate chainNet.1 chainNet.2 50).1 2 2).1 50).1 1 2 =
      some [2]) ∧
    ((bgpPropagate chainNet.1
        (simulateWithdrawal (bgpPropagate chainNet.1 chainNet.2 50).1 2 2).1 50).1 3 2 =
      some [2]) ∧
    ((bgpPropagate chainNet.1
        (simulateWithdrawal (bgpPropagate chainNet.1 chainNet.2 50).1 2 2).1 50).1 2 2 =
      none) := by decide

/-- C9 counterexample: `build_as_nodes` accepts the self-loop edge `(1, 1)`
without any check — the node becomes its own (doubled) neighbour and the
round engine happily simulates the result instead of failing. -/
theorem bgp_selfloop_construction_cex :
    (loopNet.1.nbrs 1 = [1, 1]) ∧
    (loopNet.1.asns = [1]) ∧
    ((bgpPropagate loopNet.1 loopNet.2 50).2 = 1) := by decide

/-!
## Lemmas about the delivery fold of `simulate_rip` rounds
-/

theorem delFold_none (t : Topo) (snap : RState) (ps : List (Nat × Nat)) :
    ps.foldl (delStep t snap) none = none := by
  induction ps with
  | nil => rfl
  | cons p rest ih => simpa [delStep] using ih

theorem delFold_some_of_some {t : Topo} {snap : RState} {ps : List (Nat × Nat)}
    {acc : Option (RState × Nat)} {r : RState × Nat}
    (h : ps.foldl (delStep t snap) acc = some r) : ∃ a, acc = some a := by
  cases acc with
  | none => rw [delFold_none] at h; exact absurd h (by simp)
  | some a => exact ⟨a, rfl⟩

theorem delStep_some {t : Topo} {snap : RState} {st : RState} {cnt : Nat}
    {p : Nat × Nat} {r : RState × Nat}
    (h : delStep t snap (some (st, cnt)) p = some r) :
    ∃ tb chg,
      processUpdate (t.w p.2 p.1) p.1 (tableItems t.nodes (snap p.1)) (st p.2) =
        some (tb, chg) ∧
      r = (upd st p.2 tb, if chg then cnt + 1 else cnt) := by
  simp only [delStep] at h
  split at h
  · exact absurd h (by simp)
  · rename_i tb chg hpu
    cases h
    exact ⟨tb, chg, hpu, rfl⟩

theorem delFold_stLe (t : Topo) (snap : RState) :
    ∀ (ps : List (Nat × Nat)) (st : RState) (cnt : Nat) (r : RState × Nat),
      ps.foldl (delStep t snap) (some (st, cnt)) = some r → stLe r.1 st := by
  intro ps
  induction ps with
  | nil => intro st cnt r h; cases h; exact stLe_refl _
  | cons p rest ih =>
    intro st cnt r h
    rw [List.foldl_cons] at h
    obtain ⟨⟨st1, cnt1⟩, hstep⟩ := delFold_some_of_some h
    rw [hstep] at h
    obtain ⟨tb, chg, hpu, heq⟩ := delStep_some hstep
    cases heq
    refine stLe_trans (ih _ _ _ h) fun u => ?_
    by_cases hu : u = p.2
    · subst hu
      rw [upd_eq]
      exact puFold_tblLe _ _ _ _ _ _ hpu
    · rw [upd_ne _ _ _ hu]
      exact tblLe_refl _

theorem delFold_zero (t : Topo) (snap : RState) :
    ∀ (ps : List (Nat × Nat)) (st : RState) (cnt : Nat) (r : RState × Nat),
      ps.foldl (delStep t snap) (some (st, cnt)) = some r → r.2 = 0 →
      cnt = 0 ∧ r.1 = st ∧
      ∀ p ∈ ps,
        processUpdate (t.w p.2 p.1) p.1 (tableItems t.nodes (snap p.1)) (st p.2) =
          some (st p.2, false) := by
  intro ps
  induction ps with
  | nil =>
    intro st cnt r h hz
    cases h
    exact ⟨hz, rfl, fun p hp => absurd hp (List.not_mem_nil p)⟩
  | cons p rest ih =>
    intro st cnt r h hz
    rw [List.foldl_cons] at h
    obtain ⟨⟨st1, cnt1⟩, hstep⟩ := delFold_some_of_some h
    rw [hstep] at h
    obtain ⟨tb, chg, hpu, heq⟩ := delStep_some hstep
    cases heq
    obtain ⟨hcnt1, hst, hrest⟩ := ih _ _ _ h hz
    have hchg : chg = false := by
      cases chg
      · rfl
      · exact absurd hcnt1 (by simp)
    subst hchg
    have hcnt : cnt = 0 := hcnt1
    have htb : tb = st p.2 := by
      have := puFold_false _ _ _ _ _ _ hpu rfl
      exact congrArg Prod.fst this
    subst htb
    rw [upd_self] at hst hrest
    exact ⟨hcnt, hst, fun q hq => by
      rcases List.mem_cons.mp hq with rfl | hmem
      · exact hpu
      · exact hrest q hmem⟩

theorem tableItems_keys_mem {order : List Nat} {tb : Table} :
    ∀ it ∈ tableItems order tb, it.1 ∈ order ∧ tb it.1 = some it.2 := by
  intro it hit
  exact tableItems_mem.mp (by rwa [← Prod.mk.eta (p := it)] at hit)

theorem hasKeys_of_tblLe {nodes : List Nat} {a b : Table} (hle : tblLe a b)
    (hb : hasKeys nodes b) : hasKeys nodes a := fun d => by
  rw [entryLe_isSome (hle d)]
  exact hb d

theorem delFold_success (t : Topo) (snap : RState) :
    ∀ (ps : List (Nat × Nat)) (st : RState) (cnt : Nat),
      (∀ p ∈ ps, p.2 ∈ t.nodes) → SuppInv t st →
      ∃ r, ps.foldl (delStep t snap) (some (st, cnt)) = some r ∧ SuppInv t r.1 := by
  intro ps
  induction ps with
  | nil => intro st cnt _ hsupp; exact ⟨(st, cnt), rfl, hsupp⟩
  | cons p rest ih =>
    intro st cnt hmem hsupp
    have hrecv : p.2 ∈ t.nodes := hmem p (List.mem_cons_self p rest)
    have hkeys : ∀ it ∈ tableItems t.nodes (snap p.1), ((st p.2) it.1).isSome = true := by
      intro it hit
      exact (hsupp p.2 hrecv it.1).mpr (tableItems_keys_mem it hit).1
    obtain ⟨⟨tb, chg⟩, hpu⟩ :=
      puFold_success (t.w p.2 p.1) p.1 (tableItems t.nodes (snap p.1)) (st p.2) false hkeys
    have hstep : delStep t snap (some (st, cnt)) p =
        some (upd st p.2 tb, if chg then cnt + 1 else cnt) := by
      simp only [delStep, processUpdate] at hpu ⊢
      rw [hpu]
    have hsupp1 : SuppInv t (upd st p.2 tb) := by
      intro u hu
      by_cases hup : u = p.2
      · subst hup
        rw [upd_eq]
        exact hasKeys_of_tblLe (puFold_tblLe _ _ _ _ _ _ hpu) (hsupp p.2 hu)
      · rw [upd_ne _ _ _ hup]
        exact hsupp u hu
    obtain ⟨r, hr, hsuppr⟩ :=
      ih (upd st p.2 tb) (if chg then cnt + 1 else cnt)
        (fun q hq => hmem q (List.mem_cons_of_mem _ hq)) hsupp1
    exact ⟨r, by rw [List.foldl_cons, hstep]; exact hr, hsuppr⟩

theorem deliveries_mem {t : Topo} {p : Nat × Nat} :
    p ∈ deliveries t ↔ p.1 ∈ t.nodes ∧ p.2 ∈ t.adj p.1 := by
  unfold deliveries
  rw [List.mem_flatMap]
  constructor
  · rintro ⟨s, hs, hp⟩
    rw [List.mem_map] at hp
    obtain ⟨nb, hnb, rfl⟩ := hp
    exact ⟨hs, hnb⟩
  · rintro ⟨h1, h2⟩
    exact ⟨p.1, h1, List.mem_map.mpr ⟨p.2, h2, rfl⟩⟩

theorem initDV_hasKeys (t : Topo) (u : Nat) : hasKeys t.nodes (initDV t u) := by
  intro d
  unfold initDV
  by_cases hd : d ∈ t.nodes <;> simp [hd]

theorem ripRound_success (t : Topo) {st : RState}
    (hclosed : ∀ n ∈ t.nodes, ∀ m ∈ t.adj n, m ∈ t.nodes) (hsupp : SuppInv t st) :
    ∃ r, ripRound t st = some r ∧ SuppInv t r.1 ∧ stLe r.1 st := by
  obtain ⟨r, hr, hsuppr⟩ :=
    delFold_success t st (deliveries t) st 0
      (fun p hp =>
        hclosed p.1 (deliveries_mem.mp hp).1 p.2 (deliveries_mem.mp hp).2)
      hsupp
  exact ⟨r, hr, hsuppr, delFold_stLe t st (deliveries t) st 0 r hr⟩

theorem ripGo_success (t : Topo)
    (hclosed : ∀ n ∈ t.nodes, ∀ m ∈ t.adj n, m ∈ t.nodes) :
    ∀ (rem : Nat) (st : RState) (acc : List Nat), SuppInv t st →
      ∃ st' rounds counts, ripGo t st acc rem = some (st', rounds, counts) ∧
        SuppInv t st' := by
  intro rem
  induction rem with
  | zero => intro st acc hsupp; exact ⟨st, acc.length, acc, rfl, hsupp⟩
  | succ rem ih =>
    intro st acc hsupp
    obtain ⟨⟨st1, cnt⟩, hround, hsupp1, _⟩ := ripRound_success t hclosed hsupp
    by_cases hz : cnt = 0
    · subst hz
      exact ⟨st1, (acc ++ [0]).length, acc ++ [0], by
        simp only [ripGo]
        rw [hround]
        simp, hsupp1⟩
    · obtain ⟨st', rounds, counts, hgo, hsupp'⟩ := ih st1 (acc ++ [cnt]) hsupp1
      exact ⟨st', rounds, counts, by
        simp only [ripGo]
        rw [hround]
        simp only [hz, if_false]
        exact hgo, hsupp'⟩

/-!
## Claim theorem: totality of the distance-vector tables (C10)
-/

/-- C10: every distance-vector table holds an entry for every node at all
times: initialization keys each table by the full node list,
`process_update` never adds or removes keys, and (in a closed topology)
every `simulate_rip` run completes with no reachable missing-key failure,
all tables still keyed by the full node list. -/
theorem rip_tables_total (t : Topo) (maxRounds : Nat)
    (hclosed : ∀ n ∈ t.nodes, ∀ m ∈ t.adj n, m ∈ t.nodes) :
    (∀ u d, ((initState t) u d).isSome = true ↔ d ∈ t.nodes) ∧
    (∀ costToNb nbName items tb res,
      processUpdate costToNb nbName items tb = some res →
      ∀ d, (res.1 d).isSome = (tb d).isSome) ∧
    (∃ st rounds counts, simulateRip t maxRounds = some (st, rounds, counts) ∧
      ∀ u ∈ t.nodes, ∀ d, ((st u) d).isSome = true ↔ d ∈ t.nodes) := by
  refine ⟨fun u d => initDV_hasKeys t u d, ?_, ?_⟩
  · intro c nb items tb res hres d
    exact entryLe_isSome (puFold_tblLe c nb items tb false res hres d)
  · obtain ⟨st, rounds, counts, hgo, hsupp⟩ :=
      ripGo_success t hclosed maxRounds (initState t) []
        (fun u _ => initDV_hasKeys t u)
    exact ⟨st, rounds, counts, hgo, hsupp⟩

theorem rip_tables_total_witness :
    (∀ n ∈ triangleT.nodes, ∀ m ∈ triangleT.adj n, m ∈ triangleT.nodes) ∧
    (∀ u d, ((initState triangleT) u d).isSome = true ↔ d ∈ triangleT.nodes) := by
  refine ⟨by decide, ?_⟩
  exact (rip_tables_total triangleT 50 (by decide)).1

/-!
## Claim theorem: no validation at topology construction (C9)
-/

theorem bgpAdjStep_append (n : Nat) (acc : List Nat) (e : Nat × Nat) :
    bgpAdjStep n acc e = acc ++ bgpAdjStep n [] e := by
  unfold bgpAdjStep
  by_cases h1 : e.1 = n <;> by_cases h2 : e.2 = n <;> simp [h1, h2]

theorem bgpAdj_fold_acc (n : Nat) :
    ∀ (edges : List (Nat × Nat)) (acc : List Nat),
      edges.foldl (bgpAdjStep n) acc = acc ++ bgpAdj edges n := by
  intro edges
  induction edges with
  | nil => intro acc; simp [bgpAdj]
  | cons e rest ih =>
    intro acc
    unfold bgpAdj
    rw [List.foldl_cons, List.foldl_cons, ih, ih (bgpAdjStep n [] e),
      bgpAdjStep_append, List.append_assoc]

theorem bgpAdj_cons (n : Nat) (e : Nat × Nat) (rest : List (Nat × Nat)) :
    bgpAdj (e :: rest) n = bgpAdjStep n [] e ++ bgpAdj rest n := by
  unfold bgpAdj
  rw [List.foldl_cons, bgpAdj_fold_acc]
  rfl

/-- C9 (corrected): topology construction performs no validation at all.
`build_as_nodes` always succeeds; its adjacency is symmetric purely by
construction (each endpoint occurrence is mirrored, so occurrence counts
match), a self-loop edge makes the node its own neighbour twice, and the
graph cost lookup accepts any (including non-positive) cost unchecked. -/
theorem topology_construction_no_validation :
    (∀ (edges : List (Nat × Nat)) (n m : Nat),
      (bgpAdj edges n).count m = (bgpAdj edges m).count n) ∧
    (∀ a : Nat, bgpAdj [(a, a)] a = [a, a]) ∧
    (∀ u v c : Nat, nxCost [(u, v, c)] u v = c) := by
  refine ⟨?_, fun a => by simp [bgpAdj, bgpAdjStep], fun u v c => by simp [nxCost]⟩
  intro edges
  induction edges with
  | nil => intro n m; rfl
  | cons e rest ih =>
    intro n m
    rw [bgpAdj_cons, bgpAdj_cons, List.count_append, List.count_append, ih n m]
    have hstep : (bgpAdjStep n [] e).count m = (bgpAdjStep m [] e).count n := by
      unfold bgpAdjStep
      by_cases hnm : n = m
      · subst hnm; rfl
      · have hmn : ¬ m = n := fun h => hnm h.symm
        by_cases h1 : e.1 = n <;> by_cases h2 : e.2 = n <;>
          by_cases h3 : e.1 = m <;> by_cases h4 : e.2 = m <;>
          simp [h1, h2, h3, h4, hnm, hmn, List.count_cons, List.count_nil,
            List.count_append, beq_iff_eq]
    omega

/-!
## Reporting lemmas for the round loops (C1)
-/

theorem dropLast_nonzero_getLast {l : List Nat} (h : ∀ c ∈ l.dropLast, c ≠ 0) :
    0 ∈ l ↔ l.getLast? = some 0 := by
  constructor
  · intro hmem
    have hne : l ≠ [] := by rintro rfl; cases hmem
    rw [← List.dropLast_append_getLast hne] at hmem
    rcases List.mem_append.mp hmem with hd | hl
    · exact absurd rfl (h 0 hd)
    · rw [List.getLast?_eq_getLast_of_ne_nil hne]
      rcases List.mem_singleton.mp hl with hg
      rw [← hg]
  · intro hlast
    obtain ⟨hne, hg⟩ := List.mem_getLast?_eq_getLast (l := l) (x := 0) (by rw [hlast]; rfl)
    rw [hg]
    exact List.getLast_mem hne

theorem ripGo_report (t : Topo) :
    ∀ (rem : Nat) (st : RState) (acc : List Nat) (st' : RState) (rounds : Nat)
      (counts : List Nat),
      ripGo t st acc rem = some (st', rounds, counts) →
      (∀ c ∈ acc, c ≠ 0) →
      rounds = counts.length ∧
      counts.length ≤ acc.length + rem ∧
      (∀ c ∈ counts.dropLast, c ≠ 0) ∧
      (counts.length < acc.length + rem → counts.getLast? = some 0) := by
  intro rem
  induction rem with
  | zero =>
    intro st acc st' rounds counts h hacc
    cases h
    exact ⟨rfl, le_refl _, fun c hc => hacc c (List.dropLast_subset _ hc),
      fun hlt => absurd hlt (by omega)⟩
  | succ rem ih =>
    intro st acc st' rounds counts h hacc
    simp only [ripGo] at h
    cases hround : ripRound t st with
    | none => rw [hround] at h; exact absurd h (by simp)
    | some r =>
      obtain ⟨st1, cnt⟩ := r
      rw [hround] at h
      by_cases hz : cnt = 0
      · subst hz
        simp only [if_pos rfl, Option.some.injEq, Prod.mk.injEq] at h
        obtain ⟨rfl, rfl, rfl⟩ := h
        refine ⟨rfl, by simp, ?_, fun _ => List.getLast?_concat _⟩
        rw [List.dropLast_concat]
        exact hacc
      · simp only [if_neg hz] at h
        obtain ⟨h1, h2, h3, h4⟩ := ih st1 (acc ++ [cnt]) st' rounds counts h
          (fun c hc => by
            rcases List.mem_append.mp hc with hc | hc
            · exact hacc c hc
            · rw [List.mem_singleton.mp hc]; exact hz)
        have hlen : (acc ++ [cnt]).length + rem = acc.length + (rem + 1) := by
          simp
          omega
        refine ⟨h1, by omega, h3, fun hlt => h4 (by omega)⟩

theorem floodGo_report (net : FloodNet) (maxR : Nat) :
    ∀ (fuel : Nat) (st : FState) (rounds : Nat) (advs : List Nat)
      (st' : FState) (rounds' : Nat) (advs' : List Nat),
      floodGo net maxR st rounds advs fuel = (st', rounds', advs') →
      maxR < rounds + fuel → rounds ≤ maxR → rounds = advs.length →
      (∀ c ∈ advs, c ≠ 0) →
      rounds' = advs'.length ∧ rounds < rounds' ∧
      rounds' ≤ max (rounds + 1) maxR ∧
      (∀ c ∈ advs'.dropLast, c ≠ 0) := by
  intro fuel
  induction fuel with
  | zero =>
    intro st rounds advs st' rounds' advs' _ hfuel hle _ _
    exact absurd hfuel (by omega)
  | succ fuel ih =>
    intro st rounds advs st' rounds' advs' h hfuel hle hlen hacc
    simp only [floodGo] at h
    by_cases hstop : (floodRound net st).2 = 0 ∨ maxR ≤ rounds + 1
    · rw [if_pos hstop] at h
      simp only [Prod.mk.injEq] at h
      obtain ⟨rfl, rfl, rfl⟩ := h
      refine ⟨by simp [hlen], by omega, le_max_left _ _, ?_⟩
      rw [List.dropLast_concat]
      exact hacc
    · rw [if_neg hstop] at h
      push_neg at hstop
      obtain ⟨hc, hmaxR⟩ := hstop
      obtain ⟨h1, h2, h3, h4⟩ := ih (floodRound net st).1 (rounds + 1)
        (advs ++ [(floodRound net st).2]) st' rounds' advs' h
        (by omega) (by omega) (by simp [hlen])
        (fun c hcm => by
          rcases List.mem_append.mp hcm with hcm | hcm
          · exact hacc c hcm
          · rw [List.mem_singleton.mp hcm]; exact hc)
      exact ⟨h1, by omega, by omega, h4⟩

/-- C1 (corrected): `simulate_rip` and the flooding loops return the
per-round change counts, whose last element is zero exactly when some round
produced zero changes — so their callers can distinguish convergence from
budget exhaustion, and no exception is raised in either case.
`bgp_propagate`, however, reports only the round count, which is identical
for a run converging in its final allowed round and a run cut off while
still changing. -/
theorem round_reporting_amended :
    (∀ (t : Topo) (maxRounds : Nat) (st : RState) (rounds : Nat) (counts : List Nat),
      simulateRip t maxRounds = some (st, rounds, counts) →
      rounds = counts.length ∧ counts.length ≤ maxRounds ∧
      (∀ c ∈ counts.dropLast, c ≠ 0) ∧
      (counts.length < maxRounds → counts.getLast? = some 0) ∧
      (0 ∈ counts ↔ counts.getLast? = some 0)) ∧
    (∀ (net : FloodNet) (st0 st : FState) (rounds : Nat) (advs : List Nat),
      floodRun net 50 st0 = (st, rounds, advs) →
      rounds = advs.length ∧ 1 ≤ rounds ∧ rounds ≤ 50 ∧
      (∀ c ∈ advs.dropLast, c ≠ 0) ∧
      (0 ∈ advs ↔ advs.getLast? = some 0)) ∧
    (∀ (net : FloodNet) (st0 st : FState) (rounds : Nat) (advs : List Nat),
      floodRun net 60 st0 = (st, rounds, advs) →
      rounds = advs.length ∧ 1 ≤ rounds ∧ rounds ≤ 60 ∧
      (∀ c ∈ advs.dropLast, c ≠ 0) ∧
      (0 ∈ advs ↔ advs.getLast? = some 0)) ∧
    ((bgpPropagate idleNet.1 idleNet.2 1).2 = (bgpPropagate oneNet.1 oneNet.2 1).2 ∧
      (bgpRound idleNet.1 idleNet.2).2 = false ∧
      (bgpRound oneNet.1 oneNet.2).2 = true) := by
  refine ⟨?_, ?_, ?_, by decide⟩
  · intro t maxRounds st rounds counts h
    obtain ⟨h1, h2, h3, h4⟩ := ripGo_report t maxRounds (initState t) [] st rounds counts h
      (fun c hc => absurd hc (List.not_mem_nil c))
    exact ⟨h1, by simpa using h2, h3, fun hlt => h4 (by simpa using hlt),
      dropLast_nonzero_getLast h3⟩
  · intro net st0 st rounds advs h
    obtain ⟨h1, h2, h3, h4⟩ := floodGo_report net 50 51 st0 0 [] st rounds advs h
      (by omega) (by omega) rfl (fun c hc => absurd hc (List.not_mem_nil c))
    exact ⟨h1, by omega, by omega, h4, dropLast_nonzero_getLast h4⟩
  · intro net st0 st rounds advs h
    obtain ⟨h1, h2, h3, h4⟩ := floodGo_report net 60 61 st0 0 [] st rounds advs h
      (by omega) (by omega) rfl (fun c hc => absurd hc (List.not_mem_nil c))
    exact ⟨h1, by omega, by omega, h4, dropLast_nonzero_getLast h4⟩

theorem round_reporting_amended_witness :
    (1 : Nat) = ([0] : List Nat).length ∧ ([0] : List Nat).length ≤ 50 ∧
    (∀ c ∈ ([0] : List Nat).dropLast, c ≠ 0) ∧
    (([0] : List Nat).length < 50 → ([0] : List Nat).getLast? = some 0) ∧
    (0 ∈ ([0] : List Nat) ↔ ([0] : List Nat).getLast? = some 0) :=
  round_reporting_amended.1 triangleT 50
    ((simulateRip triangleT 50).get (by decide)).1 1 [0] rfl

/-!
## Lemmas about the flooding folds (C2)
-/

theorem receiveLsa_flag_false {db : Lsdb} {k : LinkId} {r : LsRec}
    (h : (receiveLsa db k r).2 = false) :
    receiveLsa db k r = (db, false) ∧ ∃ ex, db k = some ex ∧ r.seq ≤ ex.seq := by
  cases hdb : db k with
  | none => simp [receiveLsa, hdb] at h
  | some ex =>
    by_cases hseq : ex.seq < r.seq
    · simp [receiveLsa, hdb, hseq] at h
    · refine ⟨?_, ex, rfl, not_lt.mp hseq⟩
      simp [receiveLsa, hdb, hseq]

theorem dbItems_mem {links : List LinkId} {db : Lsdb} {k : LinkId} {rec : LsRec} :
    (k, rec) ∈ dbItems links db ↔ k ∈ links ∧ db k = some rec := by
  unfold dbItems
  rw [List.mem_filterMap]
  constructor
  · rintro ⟨a, ha, hfa⟩
    cases hdb : db a with
    | none => rw [hdb] at hfa; exact absurd hfa (by simp)
    | some rec' =>
      rw [hdb] at hfa
      simp only [Option.map_some', Option.some.injEq, Prod.mk.injEq] at hfa
      obtain ⟨rfl, rfl⟩ := hfa
      exact ⟨ha, hdb⟩
  · rintro ⟨hk, hdb⟩
    exact ⟨k, hk, by rw [hdb]; rfl⟩

theorem floodPairs_mem {net : FloodNet} {p : Nat × Nat} :
    p ∈ floodPairs net ↔ p.1 ∈ net.names ∧ p.2 ∈ net.nbrs p.1 := by
  unfold floodPairs
  rw [List.mem_flatMap]
  constructor
  · rintro ⟨s, hs, hp⟩
    rw [List.mem_map] at hp
    obtain ⟨nb, hnb, rfl⟩ := hp
    exact ⟨hs, hnb⟩
  · rintro ⟨h1, h2⟩
    exact ⟨p.1, h1, List.mem_map.mpr ⟨p.2, h2, rfl⟩⟩

theorem fdFold_count_le : ∀ (items : List (LinkId × LsRec)) (db : Lsdb) (c : Nat),
    c ≤ (items.foldl fdStep (db, c)).2 := by
  intro items
  induction items with
  | nil => intro db c; exact le_refl _
  | cons hd rest ih =>
    intro db c
    rw [List.foldl_cons]
    unfold fdStep
    by_cases hch : (receiveLsa db hd.1 hd.2).2
    · simpa [hch] using le_trans (Nat.le_succ c) (ih _ (c + 1))
    · simpa [hch] using ih _ c

theorem fdFold_zero : ∀ (items : List (LinkId × LsRec)) (db : Lsdb) (c : Nat),
    (items.foldl fdStep (db, c)).2 = 0 →
    c = 0 ∧ (items.foldl fdStep (db, c)).1 = db ∧
      ∀ it ∈ items, receiveLsa db it.1 it.2 = (db, false) := by
  intro items
  induction items with
  | nil =>
    intro db c h
    exact ⟨h, rfl, fun it hit => absurd hit (List.not_mem_nil it)⟩
  | cons hd rest ih =>
    intro db c h
    rw [List.foldl_cons] at h ⊢
    by_cases hch : (receiveLsa db hd.1 hd.2).2
    · exfalso
      have hstep : fdStep (db, c) hd = ((receiveLsa db hd.1 hd.2).1, c + 1) := by
        unfold fdStep
        simp [hch]
      rw [hstep] at h
      have := fdFold_count_le rest (receiveLsa db hd.1 hd.2).1 (c + 1)
      omega
    · have hfalse : (receiveLsa db hd.1 hd.2).2 = false := by
        cases hc2 : (receiveLsa db hd.1 hd.2).2
        · rfl
        · exact absurd hc2 hch
      obtain ⟨hpair, _⟩ := receiveLsa_flag_false hfalse
      have hstep : fdStep (db, c) hd = (db, c) := by
        unfold fdStep
        rw [hpair]
        simp
      rw [hstep] at h ⊢
      obtain ⟨hc, hdb, hrest⟩ := ih db c h
      exact ⟨hc, hdb, fun it hit => by
        rcases List.mem_cons.mp hit with rfl | hmem
        · exact hpair
        · exact hrest it hmem⟩

theorem fdFold_source : ∀ (items : List (LinkId × LsRec)) (db : Lsdb) (c : Nat)
    (k : LinkId) (rec : LsRec),
    (items.foldl fdStep (db, c)).1 k = some rec →
    db k = some rec ∨ (k, rec) ∈ items := by
  intro items
  induction items with
  | nil => intro db c k rec h; exact Or.inl h
  | cons hd rest ih =>
    intro db c k rec h
    rw [List.foldl_cons] at h
    have hcases : (receiveLsa db hd.1 hd.2).1 = db ∨
        (receiveLsa db hd.1 hd.2).1 = dbPut db hd.1 hd.2 := by
      cases hdb : db hd.1 with
      | none => simp [receiveLsa, hdb]
      | some ex =>
        by_cases hseq : ex.seq < hd.2.seq <;> simp [receiveLsa, hdb, hseq]
    have h' : (rest.foldl fdStep ((receiveLsa db hd.1 hd.2).1,
        if (receiveLsa db hd.1 hd.2).2 then c + 1 else c)).1 k = some rec := by
      exact h
    rcases ih _ _ k rec h' with hdb' | hmem
    · rcases hcases with hsame | hput
      · rw [hsame] at hdb'
        exact Or.inl hdb'
      · rw [hput] at hdb'
        unfold dbPut at hdb'
        by_cases hk : k = hd.1
        · subst hk
          rw [if_pos rfl] at hdb'
          cases hdb'
          exact Or.inr (List.mem_cons_self _ _)
        · rw [if_neg hk] at hdb'
          exact Or.inl hdb'
    · exact Or.inr (List.mem_cons_of_mem _ hmem)

theorem frFold_count_le (net : FloodNet) (st : FState) :
    ∀ (ps : List (Nat × Nat)) (cur : FState) (c : Nat),
      c ≤ (ps.foldl (frStep net st) (cur, c)).2 := by
  intro ps
  induction ps with
  | nil => intro cur c; exact le_refl _
  | cons p rest ih =>
    intro cur c
    rw [List.foldl_cons]
    unfold frStep
    exact le_trans (Nat.le_add_right c _) (ih _ _)

theorem frFold_zero (net : FloodNet) (st : FState) :
    ∀ (ps : List (Nat × Nat)) (cur : FState) (c : Nat),
      (ps.foldl (frStep net st) (cur, c)).2 = 0 →
      c = 0 ∧ (ps.foldl (frStep net st) (cur, c)).1 = cur ∧
        ∀ p ∈ ps, ∀ it ∈ dbItems net.links (st p.1),
          receiveLsa (cur p.2) it.1 it.2 = (cur p.2, false) := by
  intro ps
  induction ps with
  | nil =>
    intro cur c h
    exact ⟨h, rfl, fun p hp => absurd hp (List.not_mem_nil p)⟩
  | cons p rest ih =>
    intro cur c h
    rw [List.foldl_cons] at h ⊢
    have hd2 : (floodDeliver (cur p.2) (dbItems net.links (st p.1))).2 = 0 := by
      have hle := frFold_count_le net st rest
        (upd cur p.2 (floodDeliver (cur p.2) (dbItems net.links (st p.1))).1)
        (c + (floodDeliver (cur p.2) (dbItems net.links (st p.1))).2)
      have hform : (rest.foldl (frStep net st)
          (upd cur p.2 (floodDeliver (cur p.2) (dbItems net.links (st p.1))).1,
            c + (floodDeliver (cur p.2) (dbItems net.links (st p.1))).2)).2 = 0 := h
      omega
    obtain ⟨-, hdb1, hitems⟩ := fdFold_zero (dbItems net.links (st p.1)) (cur p.2) 0 hd2
    have hdb1' : (floodDeliver (cur p.2) (dbItems net.links (st p.1))).1 = cur p.2 := hdb1
    have hstep : frStep net st (cur, c) p = (cur, c) := by
      show (upd cur p.2 (floodDeliver (cur p.2) (dbItems net.links (st p.1))).1,
        c + (floodDeliver (cur p.2) (dbItems net.links (st p.1))).2) = (cur, c)
      rw [hdb1', upd_self, hd2]
      simp
    rw [hstep] at h ⊢
    obtain ⟨hc, hcur, hrest⟩ := ih cur c h
    exact ⟨hc, hcur, fun q hq => by
      rcases List.mem_cons.mp hq with rfl | hmem
      · exact hitems
      · exact hrest q hmem⟩

theorem floodRound_zero {net : FloodNet} {st st' : FState}
    (h : floodRound net st = (st', 0)) : st' = st ∧ Quiescent net st := by
  have h2 : (floodRound net st).2 = 0 := by rw [h]
  have h1 : (floodRound net st).1 = st' := by rw [h]
  unfold floodRound at h1 h2
  obtain ⟨-, hst, hq⟩ := frFold_zero net st (floodPairs net) st 0 h2
  exact ⟨by rw [← h1, hst], fun p hp it hit => hq p hp it hit⟩

theorem floodRound_source {net : FloodNet} {st : FState} {n : Nat} {k : LinkId}
    {rec : LsRec} (h : (floodRound net st).1 n k = some rec) :
    st n k = some rec ∨ ∃ s ∈ net.names, st s k = some rec := by
  unfold floodRound at h
  suffices hgen : ∀ (ps : List (Nat × Nat)) (cur : FState) (c : Nat),
      (∀ m, cur m k = some rec → st m k = some rec ∨ ∃ s ∈ net.names, st s k = some rec) →
      (∀ p ∈ ps, p.1 ∈ net.names) →
      (ps.foldl (frStep net st) (cur, c)).1 n k = some rec →
      st n k = some rec ∨ ∃ s ∈ net.names, st s k = some rec by
    exact hgen (floodPairs net) st 0 (fun m hm => Or.inl hm)
      (fun p hp => (floodPairs_mem.mp hp).1) h
  intro ps
  induction ps with
  | nil =>
    intro cur c hcur _ hfold
    exact hcur n hfold
  | cons p rest ih =>
    intro cur c hcur hsend hfold
    rw [List.foldl_cons] at hfold
    refine ih _ _ ?_ (fun q hq => hsend q (List.mem_cons_of_mem _ hq)) hfold
    intro m hm
    by_cases hmp : m = p.2
    · subst hmp
      rw [upd_eq] at hm
      rcases fdFold_source _ _ _ k rec hm with hold | hitem
      · exact hcur p.2 hold
      · obtain ⟨-, hsk⟩ := dbItems_mem.mp hitem
        exact Or.inr ⟨p.1, hsend p (List.mem_cons_self p rest), hsk⟩
    · rw [upd_ne _ _ _ hmp] at hm
      exact hcur m hm

theorem floodGo_inv (net : FloodNet) (maxR : Nat) (P : FState → Prop)
    (hP : ∀ s, P s → P (floodRound net s).1) :
    ∀ (fuel : Nat) (st : FState) (rounds : Nat) (advs : List Nat),
      P st → P (floodGo net maxR st rounds advs fuel).1 := by
  intro fuel
  induction fuel with
  | zero => intro st rounds advs hst; exact hst
  | succ fuel ih =>
    intro st rounds advs hst
    simp only [floodGo]
    by_cases hstop : (floodRound net st).2 = 0 ∨ maxR ≤ rounds + 1
    · rw [if_pos hstop]
      exact hP st hst
    · rw [if_neg hstop]
      exact ih _ _ _ (hP st hst)

theorem floodGo_quiescent (net : FloodNet) (maxR : Nat) :
    ∀ (fuel : Nat) (st : FState) (rounds : Nat) (advs : List Nat)
      (st' : FState) (rounds' : Nat) (advs' : List Nat),
      floodGo net maxR st rounds advs fuel = (st', rounds', advs') →
      maxR < rounds + fuel → rounds ≤ maxR →
      advs'.getLast? = some 0 →
      floodRound net st' = (st', 0) := by
  intro fuel
  induction fuel with
  | zero =>
    intro st rounds advs st' rounds' advs' _ hfuel hle _
    exact absurd hfuel (by omega)
  | succ fuel ih =>
    intro st rounds advs st' rounds' advs' h hfuel hle hlast
    simp only [floodGo] at h
    by_cases hstop : (floodRound net st).2 = 0 ∨ maxR ≤ rounds + 1
    · rw [if_pos hstop] at h
      simp only [Prod.mk.injEq] at h
      obtain ⟨hst', -, hadvs'⟩ := h
      rw [← hadvs', List.getLast?_concat] at hlast
      have hz : (floodRound net st).2 = 0 := by simpa using hlast
      have hpair : floodRound net st = (st', 0) := by
        have heta : floodRound net st =
            ((floodRound net st).1, (floodRound net st).2) := rfl
        rw [heta, hst', hz]
      obtain ⟨heq, -⟩ := floodRound_zero hpair
      rw [heq]
      rw [heq] at hpair
      exact hpair
    · rw [if_neg hstop] at h
      push_neg at hstop
      exact ih _ _ _ _ _ _ h (by omega) (by omega) hlast

theorem quiescent_seq_le {net : FloodNet} {st : FState} (hq : Quiescent net st)
    (hlc : ∀ n k, (st n k).isSome = true → k ∈ net.links) :
    ∀ {u v : Nat}, Reaches net u v → ∀ k r1, st u k = some r1 →
      ∃ r2, st v k = some r2 ∧ r1.seq ≤ r2.seq := by
  intro u v h
  induction h with
  | refl => exact fun k r1 h1 => ⟨r1, h1, le_refl _⟩
  | tail hab hbc ih =>
    rename_i b c
    intro k r1 h1
    obtain ⟨r2, h2, hle⟩ := ih k r1 h1
    have hp : (b, c) ∈ floodPairs net := floodPairs_mem.mpr ⟨hbc.1, hbc.2⟩
    have hitem : (k, r2) ∈ dbItems net.links (st b) :=
      dbItems_mem.mpr ⟨hlc b k (by rw [h2]; rfl), h2⟩
    have hrecv := hq (b, c) hp (k, r2) hitem
    have hflag : (receiveLsa (st c) k r2).2 = false := by rw [hrecv]
    obtain ⟨-, ex, hex, hseq⟩ := receiveLsa_flag_false hflag
    exact ⟨ex, hex, hle.trans hseq⟩

/-- C2 (corrected): when a `flood_lsas` run terminates because a round
changed nothing, all routers reachable from each other agree, link id by
link id, on record *presence*, *sequence number* and *cost* (the latter
given that all preloaded records carry each link's one cost, as
origination guarantees) — but not necessarily on the `origin` field, which
can differ forever when both endpoints originated the link under the same
sequence number. -/
theorem flood_quiescent_agreement
    (net : FloodNet) (st0 : FState) (initial : Nat → List (LinkId × LsRec))
    (C : LinkId → Nat) (st : FState) (rounds : Nat) (advs : List Nat)
    (hrun : floodLsas net st0 initial = (st, rounds, advs))
    (hconv : advs.getLast? = some 0)
    (hcc : ∀ n k rec, preload net.names initial st0 n k = some rec → rec.cost = C k)
    (hlc : ∀ n k, ((preload net.names initial st0) n k).isSome = true → k ∈ net.links)
    (u v : Nat) (huv : Reaches net u v) (hvu : Reaches net v u) :
    ∀ k : LinkId, ((st u k).isSome = true ↔ (st v k).isSome = true) ∧
      ∀ r1 r2, st u k = some r1 → st v k = some r2 →
        r1.seq = r2.seq ∧ r1.cost = r2.cost := by
  have hgo : floodGo net 50 (preload net.names initial st0) 0 [] 51 =
      (st, rounds, advs) := hrun
  have hquiet : floodRound net st = (st, 0) :=
    floodGo_quiescent net 50 51 _ 0 [] st rounds advs hgo (by omega) (by omega) hconv
  obtain ⟨-, hq⟩ := floodRound_zero hquiet
  have hccst : ∀ n k rec, st n k = some rec → rec.cost = C k := by
    have hinv := floodGo_inv net 50
      (fun s => ∀ n k rec, s n k = some rec → rec.cost = C k)
      (fun s hs n k rec hrec => by
        rcases floodRound_source hrec with hold | ⟨m, -, hm⟩
        · exact hs n k rec hold
        · exact hs m k rec hm)
      51 (preload net.names initial st0) 0 [] hcc
    rw [hgo] at hinv
    exact hinv
  have hlcst : ∀ n k, (st n k).isSome = true → k ∈ net.links := by
    have hinv := floodGo_inv net 50
      (fun s => ∀ n k, (s n k).isSome = true → k ∈ net.links)
      (fun s hs n k hsome => by
        obtain ⟨rec, hrec⟩ := Option.isSome_iff_exists.mp hsome
        rcases floodRound_source hrec with hold | ⟨m, -, hm⟩
        · exact hs n k (by rw [hold]; rfl)
        · exact hs m k (by rw [hm]; rfl))
      51 (preload net.names initial st0) 0 [] hlc
    rw [hgo] at hinv
    exact hinv
  intro k
  constructor
  · constructor
    · intro hu
      obtain ⟨r1, h1⟩ := Option.isSome_iff_exists.mp hu
      obtain ⟨r2, h2, -⟩ := quiescent_seq_le hq hlcst huv k r1 h1
      rw [h2]
      rfl
    · intro hv
      obtain ⟨r2, h2⟩ := Option.isSome_iff_exists.mp hv
      obtain ⟨r1, h1, -⟩ := quiescent_seq_le hq hlcst hvu k r2 h2
      rw [h1]
      rfl
  · intro r1 r2 h1 h2
    obtain ⟨r2', h2', hle12⟩ := quiescent_seq_le hq hlcst huv k r1 h1
    rw [h2] at h2'
    cases h2'
    obtain ⟨r1', h1', hle21⟩ := quiescent_seq_le hq hlcst hvu k r2 h2
    rw [h1] at h1'
    cases h1'
    exact ⟨le_antisymm hle12 hle21, by rw [hccst u k r1 h1, hccst v k r2 h2]⟩

theorem flood_quiescent_agreement_witness :
    (([0] : List Nat).getLast? = some 0) ∧
    ((((floodLsas wNet wSt0 wInitial).1 1 (1, 2)).isSome = true ↔
      ((floodLsas wNet wSt0 wInitial).1 2 (1, 2)).isSome = true)) := by
  have hpre : ∀ n k, preload wNet.names wInitial wSt0 n k =
      if n = 2 ∧ k = (1, 2) then some { cost := 5, seq := 1, origin := 2 }
      else if n = 1 ∧ k = (1, 2) then some { cost := 5, seq := 1, origin := 1 }
      else none := by
    intro n k
    simp only [preload, wNet, wInitial, wSt0, List.foldl_cons, List.foldl_nil,
      dbPut, upd]
    by_cases hn2 : n = 2 <;> by_cases hn1 : n = 1 <;>
      by_cases hk : k = (1, 2) <;>
      simp [hn2, hn1, hk, dbPut, wSt0]
  have hcc : ∀ n k rec,
      preload wNet.names wInitial wSt0 n k = some rec → rec.cost = (fun _ => 5) k := by
    intro n k rec h
    rw [hpre] at h
    split at h
    · cases h; rfl
    · split at h
      · cases h; rfl
      · exact absurd h (by simp)
  have hlc : ∀ n k,
      ((preload wNet.names wInitial wSt0) n k).isSome = true → k ∈ wNet.links := by
    intro n k h
    rw [hpre] at h
    split at h
    · rename_i hcond
      rw [hcond.2]
      exact List.mem_singleton.mpr rfl
    · split at h
      · rename_i hcond
        rw [hcond.2]
        exact List.mem_singleton.mpr rfl
      · exact absurd h (by simp)
  refine ⟨by decide, ?_⟩
  exact (flood_quiescent_agreement wNet wSt0 wInitial (fun _ => 5)
    (floodLsas wNet wSt0 wInitial).1 1 [0] rfl (by decide) hcc hlc 1 2
    (Relation.ReflTransGen.single ⟨by decide, by decide⟩)
    (Relation.ReflTransGen.single ⟨by decide, by decide⟩) (1, 2)).1

/-!
## Ground-truth lemmas: `edist`, walks and the cycle shortcut (C5)
-/

theorem foldlMin_le_init (f : Nat → ℕ∞) :
    ∀ (l : List Nat) (i : ℕ∞), l.foldl (fun a s => min a (f s)) i ≤ i := by
  intro l
  induction l with
  | nil => intro i; exact le_refl _
  | cons x rest ih =>
    intro i
    rw [List.foldl_cons]
    exact le_trans (ih _) (min_le_left _ _)

theorem foldlMin_le_elem (f : Nat → ℕ∞) :
    ∀ (l : List Nat) (i : ℕ∞) (s : Nat), s ∈ l →
      l.foldl (fun a s => min a (f s)) i ≤ f s := by
  intro l
  induction l with
  | nil => intro i s hs; exact absurd hs (List.not_mem_nil s)
  | cons x rest ih =>
    intro i s hs
    rw [List.foldl_cons]
    rcases List.mem_cons.mp hs with rfl | hmem
    · exact le_trans (foldlMin_le_init f rest _) (min_le_right _ _)
    · exact ih _ s hmem

theorem foldlMin_cases (f : Nat → ℕ∞) :
    ∀ (l : List Nat) (i : ℕ∞),
      l.foldl (fun a s => min a (f s)) i = i ∨
        ∃ s ∈ l, l.foldl (fun a s => min a (f s)) i = f s := by
  intro l
  induction l with
  | nil => intro i; exact Or.inl rfl
  | cons x rest ih =>
    intro i
    rw [List.foldl_cons]
    rcases ih (min i (f x)) with heq | ⟨s, hs, heq⟩
    · rcases min_choice i (f x) with hmin | hmin
      · exact Or.inl (heq.trans hmin)
      · exact Or.inr ⟨x, List.mem_cons_self x rest, heq.trans hmin⟩
    · exact Or.inr ⟨s, List.mem_cons_of_mem _ hs, heq⟩

theorem edist_succ (t : Topo) (k u d : Nat) :
    edist t (k + 1) u d =
      (t.adj u).foldl (fun acc s => min acc ((t.w u s : ℕ∞) + edist t k s d))
        (edist t k u d) := rfl

theorem edist_succ_le (t : Topo) (k : Nat) (u d : Nat) :
    edist t (k + 1) u d ≤ edist t k u d := by
  rw [edist_succ]
  exact foldlMin_le_init _ _ _

theorem edist_anti (t : Topo) {j k : Nat} (h : j ≤ k) (u d : Nat) :
    edist t k u d ≤ edist t j u d := by
  induction k with
  | zero => cases Nat.le_zero.mp h; exact le_refl _
  | succ k ih =>
    rcases Nat.lt_or_ge j (k + 1) with hlt | hge
    · exact le_trans (edist_succ_le t k u d) (ih (Nat.lt_succ_iff.mp hlt))
    · cases le_antisymm h hge
      exact le_refl _

theorem edist_self (t : Topo) (k : Nat) (u : Nat) : edist t k u u = 0 := by
  refine le_antisymm ?_ (zero_le _)
  have h0 : edist t 0 u u = 0 := by simp [edist]
  exact h0 ▸ edist_anti t (Nat.zero_le k) u u

theorem edist_triangle_step (t : Topo) (k : Nat) {u : Nat} {s : Nat} (d : Nat)
    (hs : s ∈ t.adj u) :
    edist t (k + 1) u d ≤ (t.w u s : ℕ∞) + edist t k s d := by
  rw [edist_succ]
  exact foldlMin_le_elem _ _ _ s hs

theorem walkCost_cons_cons (t : Topo) (a b : Nat) (rest : List Nat) :
    walkCost t (a :: b :: rest) = t.w a b + walkCost t (b :: rest) := rfl

theorem walkCost_single (t : Topo) (a : Nat) : walkCost t [a] = 0 := rfl

theorem walkCost_append (t : Topo) :
    ∀ (xs : List Nat) (y : Nat) (ys : List Nat),
      walkCost t (xs ++ y :: ys) = walkCost t (xs ++ [y]) + walkCost t (y :: ys) := by
  intro xs
  induction xs with
  | nil =>
    intro y ys
    simp [walkCost_single]
  | cons x xs' ih =>
    intro y ys
    cases xs' with
    | nil =>
      simp only [List.nil_append, List.cons_append]
      rw [walkCost_cons_cons, walkCost_cons_cons, walkCost_single]
      omega
    | cons x2 xs'' =>
      simp only [List.cons_append] at ih ⊢
      rw [walkCost_cons_cons, walkCost_cons_cons, ih y ys]
      omega

theorem walk_mem_nodes (t : Topo)
    (hclosed : ∀ n ∈ t.nodes, ∀ m ∈ t.adj n, m ∈ t.nodes) :
    ∀ (p : List Nat) (u : Nat), List.Chain' (fun a b => b ∈ t.adj a) p →
      p.head? = some u → u ∈ t.nodes → ∀ x ∈ p, x ∈ t.nodes := by
  intro p
  induction p with
  | nil => intro u _ hhead _ x hx; cases hx
  | cons a rest ih =>
    intro u hchain hhead hu x hx
    have ha : a = u := by
      simpa using hhead
    subst ha
    rcases List.mem_cons.mp hx with rfl | hmem
    · exact hu
    · cases rest with
      | nil => cases hmem
      | cons b rest' =>
        have hb : b ∈ t.adj a := (List.chain'_cons.mp hchain).1
        exact ih b (List.chain'_cons.mp hchain).2 rfl
          (hclosed a hu b hb) x hmem

theorem edist_le_walk (t : Topo) :
    ∀ (k : Nat) (p : List Nat) (u d : Nat), WalkFrom t u p d →
      p.length ≤ k + 1 → edist t k u d ≤ (walkCost t p : ℕ∞) := by
  intro k
  induction k with
  | zero =>
    intro p u d ⟨hchain, hhead, hlast⟩ hlen
    match p, hhead with
    | [a], hhead =>
      have ha : a = u := by simpa using hhead
      have hd : a = d := by simpa using hlast
      subst ha
      subst hd
      rw [edist_self]
      exact zero_le _
  | succ k ih =>
    intro p u d ⟨hchain, hhead, hlast⟩ hlen
    cases p with
    | nil => cases hhead
    | cons a rest =>
      have ha : a = u := by simpa using hhead
      subst ha
      cases rest with
      | nil =>
        have hd : a = d := by simpa using hlast
        subst hd
        rw [edist_self]
        exact zero_le _
      | cons s rest' =>
        have hs : s ∈ t.adj a := (List.chain'_cons.mp hchain).1
        have hwalk : WalkFrom t s (s :: rest') d :=
          ⟨(List.chain'_cons.mp hchain).2, rfl, by simpa using hlast⟩
        have hlen' : (s :: rest').length ≤ k + 1 := by
          simpa using Nat.succ_le_succ_iff.mp (by simpa using hlen)
        calc edist t (k + 1) a d ≤ (t.w a s : ℕ∞) + edist t k s d :=
              edist_triangle_step t k d hs
          _ ≤ (t.w a s : ℕ∞) + (walkCost t (s :: rest') : ℕ∞) :=
              add_le_add_left (ih (s :: rest') s d hwalk hlen') _
          _ = (walkCost t (a :: s :: rest') : ℕ∞) := by
              rw [walkCost_cons_cons]
              push_cast
              ring

theorem edist_realized (t : Topo) :
    ∀ (k : Nat) (u d : Nat), edist t k u d ≠ ⊤ →
      ∃ p, WalkFrom t u p d ∧ p.length ≤ k + 1 ∧
        (walkCost t p : ℕ∞) = edist t k u d := by
  intro k
  induction k with
  | zero =>
    intro u d h
    have hud : u = d := by
      by_contra hne
      exact h (by simp [edist, hne])
    subst hud
    exact ⟨[u], ⟨List.chain'_singleton u, rfl, rfl⟩, by simp,
      by simp [walkCost, edist_self]⟩
  | succ k ih =>
    intro u d h
    rcases foldlMin_cases (fun s => (t.w u s : ℕ∞) + edist t k s d) (t.adj u)
        (edist t k u d) with heq | ⟨s, hs, heq⟩
    · have hform : edist t (k + 1) u d = edist t k u d := heq
      obtain ⟨p, hwalk, hlen, hcost⟩ := ih u d (by rw [← hform]; exact h)
      exact ⟨p, hwalk, le_trans hlen (Nat.le_succ _), hcost.trans hform.symm⟩
    · have hform : edist t (k + 1) u d = (t.w u s : ℕ∞) + edist t k s d := heq
      have hsub : edist t k s d ≠ ⊤ := by
        intro htop
        rw [htop] at hform
        simp at hform
        exact h hform
      obtain ⟨q, ⟨hchain, hhead, hlast⟩, hlen, hcost⟩ := ih s d hsub
      cases q with
      | nil => cases hhead
      | cons s0 q' =>
        have hs0 : s0 = s := by simpa using hhead
        subst hs0
        refine ⟨u :: s0 :: q', ⟨List.chain'_cons.mpr ⟨hs, hchain⟩, rfl, ?_⟩, ?_, ?_⟩
        · rw [List.getLast?_cons_cons]
          exact hlast
        · simpa using Nat.succ_le_succ hlen
        · rw [walkCost_cons_cons, hform]
          push_cast
          rw [hcost]

theorem not_nodup_decomp : ∀ (l : List Nat), ¬ l.Nodup →
    ∃ a l1 l2 l3, l = l1 ++ a :: l2 ++ a :: l3 := by
  intro l
  induction l with
  | nil => intro h; exact absurd List.nodup_nil h
  | cons x xs ih =>
    intro h
    by_cases hx : x ∈ xs
    · obtain ⟨s, t2, rfl⟩ := List.append_of_mem hx
      exact ⟨x, [], s, t2, by simp⟩
    · have hxs : ¬ xs.Nodup := fun hn => h (List.nodup_cons.mpr ⟨hx, hn⟩)
      obtain ⟨a, l1, l2, l3, rfl⟩ := ih hxs
      exact ⟨a, x :: l1, l2, l3, by simp⟩

theorem head?_append_cons (l1 : List Nat) (a : Nat) (tail : List Nat) :
    (l1 ++ a :: tail).head? = l1.head?.or (some a) := by
  rw [List.head?_append]
  rfl

theorem getLast?_append_cons (l1 : List Nat) (a : Nat) (tail : List Nat) :
    (l1 ++ a :: tail).getLast? = (a :: tail).getLast? := by
  rw [List.getLast?_append]
  rw [List.getLast?_eq_getLast_of_ne_nil (l := a :: tail) (by simp)]
  rfl

theorem walk_shortcut (t : Topo) {u d a : Nat} {l1 l2 l3 : List Nat}
    (h : WalkFrom t u (l1 ++ a :: l2 ++ a :: l3) d) :
    WalkFrom t u (l1 ++ a :: l3) d ∧
      walkCost t (l1 ++ a :: l3) ≤ walkCost t (l1 ++ a :: l2 ++ a :: l3) := by
  obtain ⟨hchain, hhead, hlast⟩ := h
  obtain ⟨hc1, hc3, hj1⟩ := List.chain'_append.mp hchain
  obtain ⟨hc1a, hc1b, hj0⟩ := List.chain'_append.mp hc1
  refine ⟨⟨?_, ?_, ?_⟩, ?_⟩
  · refine List.chain'_append.mpr ⟨hc1a, hc3, ?_⟩
    intro x hx y hy
    have hy' : a = y := by simpa using hy
    cases hy'
    exact hj0 x hx a (by simp)
  · cases l1 with
    | nil => simpa using hhead
    | cons x l1' => simpa using hhead
  · have e1 : (l1 ++ a :: l2 ++ a :: l3).getLast? = (a :: l3).getLast? := by
      rw [List.getLast?_append,
        List.getLast?_eq_getLast_of_ne_nil (l := a :: l3) (by simp)]
      rfl
    rw [e1] at hlast
    rw [getLast?_append_cons]
    exact hlast
  · have eP : walkCost t (l1 ++ a :: l2 ++ a :: l3) =
        walkCost t ((l1 ++ a :: l2) ++ [a]) + walkCost t (a :: l3) :=
      walkCost_append t (l1 ++ a :: l2) a l3
    have eQ : walkCost t ((l1 ++ a :: l2) ++ [a]) =
        walkCost t (l1 ++ [a]) + walkCost t (a :: (l2 ++ [a])) := by
      have e := walkCost_append t l1 a (l2 ++ [a])
      rw [← e]
      congr 1
      simp
    rw [eP, eQ, walkCost_append t l1 a l3]
    omega

theorem edist_le_any_walk (t : Topo)
    (hclosed : ∀ n ∈ t.nodes, ∀ m ∈ t.adj n, m ∈ t.nodes) :
    ∀ (p : List Nat) (u d : Nat), u ∈ t.nodes → WalkFrom t u p d →
      edist t (t.nodes.length - 1) u d ≤ (walkCost t p : ℕ∞) := by
  suffices H : ∀ (m : Nat) (p : List Nat), p.length ≤ m → ∀ u d, u ∈ t.nodes →
      WalkFrom t u p d →
      edist t (t.nodes.length - 1) u d ≤ (walkCost t p : ℕ∞) by
    exact fun p u d hu hwalk => H p.length p (le_refl _) u d hu hwalk
  intro m
  induction m with
  | zero =>
    intro p hlen u d _ hwalk
    have hp : p = [] := List.length_eq_zero.mp (Nat.le_zero.mp hlen)
    subst hp
    cases hwalk.2.1
  | succ m ih =>
    intro p hlen u d hu hwalk
    have hn1 : 1 ≤ t.nodes.length := List.length_pos.mpr (List.ne_nil_of_mem hu)
    by_cases hsmallp : p.length ≤ t.nodes.length
    · exact edist_le_walk t (t.nodes.length - 1) p u d hwalk (by omega)
    · push_neg at hsmallp
      have hsub : ∀ x ∈ p, x ∈ t.nodes :=
        walk_mem_nodes t hclosed p u hwalk.1 hwalk.2.1 hu
      have hnd : ¬ p.Nodup := by
        intro hnd
        have := (List.subperm_of_subset hnd hsub).length_le
        omega
      obtain ⟨a, l1, l2, l3, rfl⟩ := not_nodup_decomp p hnd
      obtain ⟨hwalk', hcost'⟩ := walk_shortcut t hwalk
      have hlen' : (l1 ++ a :: l3).length ≤ m := by
        have h1 : (l1 ++ a :: l2 ++ a :: l3).length =
            l1.length + l2.length + l3.length + 2 := by
          simp
          omega
        have h2 : (l1 ++ a :: l3).length = l1.length + l3.length + 1 := by
          simp
          omega
        omega
      exact le_trans (ih (l1 ++ a :: l3) hlen' u d hu hwalk')
        (Nat.cast_le.mpr hcost')

theorem edist_stab (t : Topo)
    (hclosed : ∀ n ∈ t.nodes, ∀ m ∈ t.adj n, m ∈ t.nodes)
    {k : Nat} (hk : t.nodes.length - 1 ≤ k) {u : Nat} (hu : u ∈ t.nodes) (d : Nat) :
    edist t k u d = edist t (t.nodes.length - 1) u d := by
  refine le_antisymm (edist_anti t hk u d) ?_
  by_cases htop : edist t k u d = ⊤
  · rw [htop]
    exact le_top
  · obtain ⟨p, hwalk, -, hcost⟩ := edist_realized t k u d htop
    rw [← hcost]
    exact edist_le_any_walk t hclosed p u d hu hwalk

/-!
## Provenance and no-op lemmas for the distance-vector round (C5)
-/

theorem puFold_source (c nb : Nat) :
    ∀ (items : List (Nat × Entry)) (tb : Table) (b : Bool) (r : Table × Bool),
      items.foldl (puStep c nb) (some (tb, b)) = some r →
      ∀ d v, r.1 d = some v →
        tb d = some v ∨ ∃ e, (d, e) ∈ items ∧ v = (candCost c e.1, some nb) := by
  intro items
  induction items with
  | nil => intro tb b r h d v hv; cases h; exact Or.inl hv
  | cons hd rest ih =>
    intro tb b r h d v hv
    rw [List.foldl_cons] at h
    obtain ⟨⟨tb1, b1⟩, hstep⟩ := puFold_some_of_some h
    rw [hstep] at h
    obtain ⟨cur, hcur, hcase⟩ := puStep_some c nb tb b hd hstep
    rcases ih tb1 b1 r h d v hv with htb1 | ⟨e, hmem, hval⟩
    · rcases hcase with ⟨_, heq⟩ | ⟨_, heq⟩ <;> cases heq
      · by_cases hdk : d = hd.1
        · subst hdk
          rw [upd_eq] at htb1
          exact Or.inr ⟨hd.2, List.mem_cons_self hd rest, (Option.some.injEq _ _ ▸ htb1).symm⟩
        · rw [upd_ne _ _ _ hdk] at htb1
          exact Or.inl htb1
      · exact Or.inl htb1
    · exact Or.inr ⟨e, List.mem_cons_of_mem _ hmem, hval⟩

theorem puFold_noop (c nb : Nat) :
    ∀ (items : List (Nat × Entry)) (tb : Table),
      (∀ it ∈ items, ∃ cur, tb it.1 = some cur ∧ ¬ candCost c it.2.1 < cur.1) →
      items.foldl (puStep c nb) (some (tb, false)) = some (tb, false) := by
  intro items
  induction items with
  | nil => intro tb _; rfl
  | cons hd rest ih =>
    intro tb hno
    obtain ⟨cur, hcur, hnlt⟩ := hno hd (List.mem_cons_self hd rest)
    have hstep : puStep c nb (some (tb, false)) hd = some (tb, false) := by
      simp only [puStep]
      rw [hcur]
      simp [hnlt]
    rw [List.foldl_cons, hstep]
    exact ih tb fun it hit => hno it (List.mem_cons_of_mem _ hit)

theorem delFold_source (t : Topo) (snap : RState) :
    ∀ (ps : List (Nat × Nat)) (st : RState) (cnt : Nat) (r : RState × Nat),
      ps.foldl (delStep t snap) (some (st, cnt)) = some r →
      ∀ u d v, r.1 u d = some v →
        st u d = some v ∨ ∃ p ∈ ps, p.2 = u ∧
          ∃ e, (d, e) ∈ tableItems t.nodes (snap p.1) ∧
            v = (candCost (t.w u p.1) e.1, some p.1) := by
  intro ps
  induction ps with
  | nil => intro st cnt r h u d v hv; cases h; exact Or.inl hv
  | cons p rest ih =>
    intro st cnt r h u d v hv
    rw [List.foldl_cons] at h
    obtain ⟨⟨st1, cnt1⟩, hstep⟩ := delFold_some_of_some h
    rw [hstep] at h
    obtain ⟨tb, chg, hpu, heq⟩ := delStep_some hstep
    cases heq
    rcases ih _ _ r h u d v hv with hst1 | ⟨q, hq, hq2, e, he, hval⟩
    · by_cases hup : u = p.2
      · subst hup
        rw [upd_eq] at hst1
        rcases puFold_source _ _ _ _ _ _ hpu d v hst1 with hold | ⟨e, he, hval⟩
        · exact Or.inl hold
        · exact Or.inr ⟨p, List.mem_cons_self p rest, rfl, e, he, hval⟩
      · rw [upd_ne _ _ _ hup] at hst1
        exact Or.inl hst1
    · exact Or.inr ⟨q, List.mem_cons_of_mem _ hq, hq2, e, he, hval⟩

theorem delFold_bound (t : Topo) (snap : RState) :
    ∀ (ps : List (Nat × Nat)) (st : RState) (cnt : Nat) (r : RState × Nat),
      ps.foldl (delStep t snap) (some (st, cnt)) = some r →
      ∀ s u, (s, u) ∈ ps → ∀ d e, (d, e) ∈ tableItems t.nodes (snap s) →
        ∀ v, r.1 u d = some v → v.1 ≤ candCost (t.w u s) e.1 := by
  intro ps
  induction ps with
  | nil => intro st cnt r _ s u hmem; cases hmem
  | cons p rest ih =>
    intro st cnt r h s u hmem d e hitem v hv
    rw [List.foldl_cons] at h
    obtain ⟨⟨st1, cnt1⟩, hstep⟩ := delFold_some_of_some h
    rw [hstep] at h
    obtain ⟨tb, chg, hpu, heq⟩ := delStep_some hstep
    cases heq
    rcases List.mem_cons.mp hmem with hpeq | hmem'
    · cases hpeq
      have hbound : ∀ v', tb d = some v' → v'.1 ≤ candCost (t.w u s) e.1 :=
        fun v' hv' => puFold_bound _ _ _ _ _ _ hpu (d, e) hitem v' hv'
      have hst1 : (upd st u tb) u d = tb d := by rw [upd_eq]
      have hle := delFold_stLe t snap rest (upd st u tb) _ r h
      have hent := (hle u) d
      rw [hst1] at hent
      rcases hent with hsame | ⟨cur, v2, hcur, hv2, hlt⟩
      · rw [hv] at hsame
        exact hbound v hsame.symm
      · rw [hv] at hv2
        cases hv2
        exact le_of_lt (lt_of_lt_of_le hlt (hbound cur hcur))
    · exact ih _ _ r h s u hmem' d e hitem v hv

theorem delFold_noop (t : Topo) (snap : RState) :
    ∀ (ps : List (Nat × Nat)) (st : RState) (cnt : Nat),
      (∀ p ∈ ps,
        processUpdate (t.w p.2 p.1) p.1 (tableItems t.nodes (snap p.1)) (st p.2) =
          some (st p.2, false)) →
      ps.foldl (delStep t snap) (some (st, cnt)) = some (st, cnt) := by
  intro ps
  induction ps with
  | nil => intro st cnt _; rfl
  | cons p rest ih =>
    intro st cnt hno
    have hstep : delStep t snap (some (st, cnt)) p = some (st, cnt) := by
      simp only [delStep, processUpdate] at hno ⊢
      rw [hno p (List.mem_cons_self p rest)]
      show some (upd st p.2 (st p.2), if false = true then cnt + 1 else cnt) =
        some (st, cnt)
      rw [upd_self]
      simp
    rw [List.foldl_cons, hstep]
    exact ih st cnt fun q hq => hno q (List.mem_cons_of_mem _ hq)

/-!
## Invariants of the distance-vector simulation (C5)
-/

theorem init_SelfZero (t : Topo) : SelfZero t (initState t) := by
  intro u hu
  exact ⟨some u, by simp [initState, initDV, hu]⟩

theorem init_LB (t : Topo) : LBInv t (initState t) := by
  intro u hu d c nh h
  simp only [initState, initDV] at h
  by_cases hd : d ∈ t.nodes
  · rw [if_pos hd] at h
    by_cases hdu : d = u
    · subst hdu
      rw [if_pos rfl] at h
      simp only [Option.some.injEq, Prod.mk.injEq] at h
      refine Or.inl ⟨[d], ⟨List.chain'_singleton d, rfl, rfl⟩, ?_⟩
      rw [walkCost_single, h.1]
    · rw [if_neg hdu] at h
      by_cases hadj : d ∈ t.adj u
      · rw [if_pos hadj] at h
        simp only [Option.some.injEq, Prod.mk.injEq] at h
        refine Or.inl ⟨[u, d], ⟨List.chain'_pair.mpr hadj, rfl, rfl⟩, ?_⟩
        rw [walkCost_cons_cons, walkCost_single]
        omega
      · rw [if_neg hadj] at h
        simp only [Option.some.injEq, Prod.mk.injEq] at h
        exact Or.inr (le_of_eq h.1)
  · rw [if_neg hd] at h
    exact absurd h (by simp)

theorem init_UB0 (t : Topo) : UBk t 0 (initState t) := by
  intro u hu d _ c nh h D hD _
  by_cases hud : u = d
  · subst hud
    have h0 : edist t 0 u u = 0 := by simp [edist]
    rw [h0] at hD
    have hD0 : D = 0 := by exact_mod_cast hD.symm
    have hc : c = 0 := by
      have hinit : initState t u u = some (0, some u) := by
        simp [initState, initDV, hu]
      rw [hinit] at h
      simp only [Option.some.injEq, Prod.mk.injEq] at h
      exact h.1.symm
    omega
  · have htop : edist t 0 u d = ⊤ := by simp [edist, hud]
    rw [htop] at hD
    exact absurd hD.symm (by simp)

theorem ripRound_stLe {t : Topo} {st : RState} {r : RState × Nat}
    (h : ripRound t st = some r) : stLe r.1 st :=
  delFold_stLe t st (deliveries t) st 0 r h

theorem ripRound_SelfZero {t : Topo} {st : RState} {r : RState × Nat}
    (h : ripRound t st = some r) (hsz : SelfZero t st) : SelfZero t r.1 := by
  intro u hu
  obtain ⟨nh, hnh⟩ := hsz u hu
  rcases ripRound_stLe h u u with hsame | ⟨cur, v, hcur, hv, hlt⟩
  · exact ⟨nh, by rw [hsame, hnh]⟩
  · rw [hnh] at hcur
    simp only [Option.some.injEq] at hcur
    rw [← hcur] at hlt
    exact absurd hlt (by simp)

theorem ripRound_LB (t : Topo)
    (hsym : ∀ u ∈ t.nodes, ∀ v ∈ t.nodes, (v ∈ t.adj u ↔ u ∈ t.adj v))
    {st : RState} {r : RState × Nat}
    (h : ripRound t st = some r) (hlb : LBInv t st) : LBInv t r.1 := by
  intro u hu d c nh hv
  rcases delFold_source t st (deliveries t) st 0 r h u d (c, nh) hv with
    hold | ⟨p, hp, hpu, e, he, hval⟩
  · exact hlb u hu d c nh hold
  · obtain ⟨hs_nodes, hu_adj⟩ := deliveries_mem.mp hp
    obtain ⟨hd_nodes, hsd⟩ := tableItems_mem.mp he
    simp only [Prod.mk.injEq] at hval
    obtain ⟨hc, -⟩ := hval
    by_cases hinf : INF ≤ e.1
    · refine Or.inr ?_
      rw [hc]
      unfold candCost
      rw [if_pos hinf]
    · push_neg at hinf
      have hcand : candCost (t.w u p.1) e.1 = t.w u p.1 + e.1 := by
        unfold candCost
        rw [if_neg (not_le_of_lt hinf)]
      rcases hlb p.1 hs_nodes d e.1 e.2 (by rw [hsd]) with ⟨q, hq, hqc⟩ | hqinf
      · have hadj : p.1 ∈ t.adj u := by
          rw [hpu] at hu_adj
          exact (hsym u hu p.1 hs_nodes).mpr hu_adj
        obtain ⟨hqchain, hqhead, hqlast⟩ := hq
        cases q with
        | nil => cases hqhead
        | cons q0 q' =>
          have hq0 : q0 = p.1 := by simpa using hqhead
          rw [hq0] at hqchain hqlast hqc
          refine Or.inl ⟨u :: p.1 :: q',
            ⟨List.chain'_cons.mpr ⟨hadj, hqchain⟩, rfl, ?_⟩, ?_⟩
          · rw [List.getLast?_cons_cons]
            exact hqlast
          · rw [walkCost_cons_cons, hqc, hc, hcand]
      · exact absurd hqinf (not_le_of_lt hinf)

theorem ripRound_UB (t : Topo)
    (hsym : ∀ u ∈ t.nodes, ∀ v ∈ t.nodes, (v ∈ t.adj u ↔ u ∈ t.adj v))
    (hclosed : ∀ n ∈ t.nodes, ∀ m ∈ t.adj n, m ∈ t.nodes)
    {st : RState} {r : RState × Nat} {k : Nat}
    (h : ripRound t st = some r) (hsupp : SuppInv t st) (hub : UBk t k st) :
    UBk t (k + 1) r.1 := by
  intro u hu d hd c nh hv D hD hDlt
  rw [edist_succ] at hD
  rcases foldlMin_cases (fun s => (t.w u s : ℕ∞) + edist t k s d) (t.adj u)
      (edist t k u d) with heq | ⟨s, hs, heq⟩
  · have hDk : edist t k u d = (D : ℕ∞) := by rw [← heq, hD]
    obtain ⟨⟨c0, nh0⟩, hc0⟩ := Option.isSome_iff_exists.mp ((hsupp u hu d).mpr hd)
    have hc0le := hub u hu d hd c0 nh0 hc0 D hDk hDlt
    have hent := ripRound_stLe h u d
    rw [hc0] at hent
    rcases hent with hsame | ⟨cur, v, hcur, hvv, hlt⟩
    · rw [hv] at hsame
      simp only [Option.some.injEq, Prod.mk.injEq] at hsame
      omega
    · simp only [Option.some.injEq] at hcur
      rw [hv] at hvv
      simp only [Option.some.injEq] at hvv
      rw [← hvv] at hlt
      rw [← hcur] at hlt
      simp only at hlt
      omega
  · have hsum : (t.w u s : ℕ∞) + edist t k s d = (D : ℕ∞) := by rw [← heq, hD]
    have hsnodes : s ∈ t.nodes := hclosed u hu s hs
    have hne : edist t k s d ≠ ⊤ := by
      intro htop
      rw [htop] at hsum
      simp at hsum
    obtain ⟨Ds, hDs⟩ := WithTop.ne_top_iff_exists.mp hne
    have hDeq : t.w u s + Ds = D := by
      rw [← hDs] at hsum
      have h2 : ((t.w u s + Ds : Nat) : ℕ∞) = (D : ℕ∞) := by
        push_cast
        exact hsum
      exact_mod_cast h2
    have hDslt : Ds < INF := by omega
    obtain ⟨⟨cs, nhs⟩, hcs⟩ := Option.isSome_iff_exists.mp ((hsupp s hsnodes d).mpr hd)
    have hcsle := hub s hsnodes d hd cs nhs hcs Ds hDs.symm hDslt
    have hdel : (s, u) ∈ deliveries t :=
      deliveries_mem.mpr ⟨hsnodes, (hsym u hu s hsnodes).mp hs⟩
    have hitem : (d, ((cs, nhs) : Entry)) ∈ tableItems t.nodes (st s) :=
      tableItems_mem.mpr ⟨hd, hcs⟩
    have hb := delFold_bound t st (deliveries t) st 0 r h s u hdel d (cs, nhs)
      hitem (c, nh) hv
    have hcand : candCost (t.w u s) cs = t.w u s + cs := by
      unfold candCost
      rw [if_neg (by omega)]
    rw [hcand] at hb
    simp only at hb
    omega

/-!
## From a zero-change round to shortest-path optimality (C5)
-/

theorem ripRound_zero_stable (t : Topo)
    (hsym : ∀ u ∈ t.nodes, ∀ v ∈ t.nodes, (v ∈ t.adj u ↔ u ∈ t.adj v))
    (hclosed : ∀ n ∈ t.nodes, ∀ m ∈ t.adj n, m ∈ t.nodes)
    {st : RState} {r : RState × Nat}
    (hsupp : SuppInv t st) (h : ripRound t st = some r) (hz : r.2 = 0) :
    r.1 = st ∧ Stable t st := by
  obtain ⟨-, hst, hall⟩ := delFold_zero t st (deliveries t) st 0 r h hz
  refine ⟨hst, ?_⟩
  intro u hu s hs d e he
  have hsn : s ∈ t.nodes := hclosed u hu s hs
  have hua : u ∈ t.adj s := (hsym u hu s hsn).mp hs
  have hdel : ((s, u) : Nat × Nat) ∈ deliveries t := deliveries_mem.mpr ⟨hsn, hua⟩
  have hpu := hall (s, u) hdel
  have hd : d ∈ t.nodes := (hsupp s hsn d).mp (by rw [he]; rfl)
  have hitem : (d, e) ∈ tableItems t.nodes (st s) := tableItems_mem.mpr ⟨hd, he⟩
  exact puFold_quiescent _ _ _ _ _ _ hpu rfl (d, e) hitem

theorem stable_le_walk (t : Topo)
    (hclosed : ∀ n ∈ t.nodes, ∀ m ∈ t.adj n, m ∈ t.nodes)
    {st : RState} (hsupp : SuppInv t st) (hstab : Stable t st)
    (hsz : SelfZero t st) :
    ∀ (p : List Nat) (u d : Nat), u ∈ t.nodes → WalkFrom t u p d →
      walkCost t p < INF → ∀ c nh, st u d = some (c, nh) →
      c ≤ walkCost t p := by
  intro p
  induction p with
  | nil => intro u d _ hwalk _ c nh _; cases hwalk.2.1
  | cons a rest ih =>
    intro u d hu hwalk hcost c nh hc
    obtain ⟨hchain, hhead, hlast⟩ := hwalk
    have ha : a = u := by simpa using hhead
    subst ha
    cases rest with
    | nil =>
      have had : a = d := by simpa using hlast
      subst had
      obtain ⟨nh0, hnh0⟩ := hsz a hu
      rw [hnh0] at hc
      simp only [Option.some.injEq, Prod.mk.injEq] at hc
      rw [walkCost_single]
      omega
    | cons s rest' =>
      have hs : s ∈ t.adj a := (List.chain'_cons.mp hchain).1
      have hsn : s ∈ t.nodes := hclosed a hu s hs
      have hwalk' : WalkFrom t s (s :: rest') d :=
        ⟨(List.chain'_cons.mp hchain).2, rfl, by simpa using hlast⟩
      have hcost' : walkCost t (s :: rest') < INF := by
        rw [walkCost_cons_cons] at hcost
        omega
      have hd : d ∈ t.nodes := (hsupp a hu d).mp (by rw [hc]; rfl)
      obtain ⟨⟨cs, nhs⟩, hcs⟩ := Option.isSome_iff_exists.mp ((hsupp s hsn d).mpr hd)
      have hcsle : cs ≤ walkCost t (s :: rest') := ih s d hsn hwalk' hcost' cs nhs hcs
      obtain ⟨cur, hcur, hnlt⟩ := hstab a hu s hs d (cs, nhs) hcs
      rw [hc] at hcur
      simp only [Option.some.injEq] at hcur
      subst hcur
      have hnlt' : ¬ candCost (t.w a s) cs < c := hnlt
      have hcand : candCost (t.w a s) cs = t.w a s + cs := by
        unfold candCost
        rw [if_neg (by omega)]
      rw [hcand] at hnlt'
      rw [walkCost_cons_cons]
      omega

theorem stable_opt (t : Topo)
    (hclosed : ∀ n ∈ t.nodes, ∀ m ∈ t.adj n, m ∈ t.nodes)
    {st : RState} (hsupp : SuppInv t st) (hsz : SelfZero t st)
    (hlb : LBInv t st) (hstab : Stable t st)
    (hsmall : ∀ u ∈ t.nodes, ∀ d ∈ t.nodes,
      edist t (t.nodes.length - 1) u d < ((INF : Nat) : ℕ∞)) :
    OptCost t st := by
  intro u hu d hd c nh hc
  have hlt := hsmall u hu d hd
  have hne : edist t (t.nodes.length - 1) u d ≠ ⊤ := ne_top_of_lt hlt
  obtain ⟨p, hwalk, -, hcost⟩ := edist_realized t _ u d hne
  obtain ⟨D, hD⟩ : ∃ D : ℕ, (D : ℕ∞) = edist t (t.nodes.length - 1) u d :=
    WithTop.ne_top_iff_exists.mp hne
  have hDlt : D < INF := by
    rw [← hD] at hlt
    exact_mod_cast hlt
  have hwc : walkCost t p = D := by
    rw [← hD] at hcost
    exact_mod_cast hcost
  have hup : c ≤ walkCost t p :=
    stable_le_walk t hclosed hsupp hstab hsz p u d hu hwalk (by omega) c nh hc
  have hDle : D ≤ c := by
    rcases hlb u hu d c nh hc with ⟨q, hq, hqc⟩ | hinf
    · have hle := edist_le_any_walk t hclosed q u d hu hq
      rw [← hD, hqc] at hle
      exact_mod_cast hle
    · omega
  have hcd : c = D := by omega
  rw [hcd, hD]

theorem opt_round_zero (t : Topo)
    (hsym : ∀ u ∈ t.nodes, ∀ v ∈ t.nodes, (v ∈ t.adj u ↔ u ∈ t.adj v))
    (hclosed : ∀ n ∈ t.nodes, ∀ m ∈ t.adj n, m ∈ t.nodes)
    {st : RState} (hsupp : SuppInv t st) (hopt : OptCost t st)
    (hsmall : ∀ u ∈ t.nodes, ∀ d ∈ t.nodes,
      edist t (t.nodes.length - 1) u d < ((INF : Nat) : ℕ∞)) :
    ripRound t st = some (st, 0) := by
  show (deliveries t).foldl (delStep t st) (some (st, 0)) = some (st, 0)
  apply delFold_noop
  intro p hp
  obtain ⟨hsn, hua⟩ := deliveries_mem.mp hp
  have hun : p.2 ∈ t.nodes := hclosed p.1 hsn p.2 hua
  have hkey : ∀ it ∈ tableItems t.nodes (st p.1),
      ∃ cur, (st p.2) it.1 = some cur ∧
        ¬ candCost (t.w p.2 p.1) it.2.1 < cur.1 := by
    intro it hit
    obtain ⟨hd, hsd⟩ := tableItems_keys_mem it hit
    obtain ⟨⟨c, nh⟩, hc⟩ := Option.isSome_iff_exists.mp ((hsupp p.2 hun it.1).mpr hd)
    refine ⟨(c, nh), hc, ?_⟩
    have hcD : (c : ℕ∞) = edist t (t.nodes.length - 1) p.2 it.1 :=
      hopt p.2 hun it.1 hd c nh hc
    have hsd' : st p.1 it.1 = some (it.2.1, it.2.2) := by rw [hsd]
    have hsD : (it.2.1 : ℕ∞) = edist t (t.nodes.length - 1) p.1 it.1 :=
      hopt p.1 hsn it.1 hd it.2.1 it.2.2 hsd'
    have hclt : (c : ℕ∞) < ((INF : Nat) : ℕ∞) := by
      rw [hcD]
      exact hsmall p.2 hun it.1 hd
    have hcI : c < INF := by exact_mod_cast hclt
    by_cases hinf : INF ≤ it.2.1
    · unfold candCost
      rw [if_pos hinf]
      omega
    · push_neg at hinf
      unfold candCost
      rw [if_neg (not_le_of_lt hinf)]
      have hadj : p.1 ∈ t.adj p.2 := (hsym p.2 hun p.1 hsn).mpr hua
      have htri : edist t (t.nodes.length - 1 + 1) p.2 it.1 ≤
          (t.w p.2 p.1 : ℕ∞) + edist t (t.nodes.length - 1) p.1 it.1 :=
        edist_triangle_step t _ it.1 hadj
      have hstabE : edist t (t.nodes.length - 1 + 1) p.2 it.1 =
          edist t (t.nodes.length - 1) p.2 it.1 :=
        edist_stab t hclosed (by omega) hun it.1
      rw [hstabE, ← hcD, ← hsD] at htri
      have hle : c ≤ t.w p.2 p.1 + it.2.1 := by exact_mod_cast htri
      omega
  exact puFold_noop (t.w p.2 p.1) p.1 (tableItems t.nodes (st p.1)) (st p.2) hkey

theorem ripGo_converges (t : Topo)
    (hsym : ∀ u ∈ t.nodes, ∀ v ∈ t.nodes, (v ∈ t.adj u ↔ u ∈ t.adj v))
    (hclosed : ∀ n ∈ t.nodes, ∀ m ∈ t.adj n, m ∈ t.nodes)
    (hsmall : ∀ u ∈ t.nodes, ∀ d ∈ t.nodes,
      edist t (t.nodes.length - 1) u d < ((INF : Nat) : ℕ∞)) :
    ∀ (rem : Nat) (st : RState) (acc : List Nat),
      SuppInv t st → SelfZero t st → LBInv t st → UBk t acc.length st →
      t.nodes.length ≤ acc.length + rem → 1 ≤ rem →
      ∃ stf counts, ripGo t st acc rem = some (stf, counts.length, counts) ∧
        counts.getLast? = some 0 ∧ counts.length ≤ acc.length + rem ∧
        SuppInv t stf ∧ OptCost t stf := by
  intro rem
  induction rem with
  | zero => intro st acc _ _ _ _ _ h1; omega
  | succ rem ih =>
    intro st acc hsupp hsz hlb hub hfuel _
    by_cases hbig : t.nodes.length - 1 ≤ acc.length
    · have hopt : OptCost t st := by
        intro u hu d hd c nh hc
        have hlt := hsmall u hu d hd
        have hne : edist t (t.nodes.length - 1) u d ≠ ⊤ := ne_top_of_lt hlt
        obtain ⟨D, hD⟩ : ∃ D : ℕ, (D : ℕ∞) = edist t (t.nodes.length - 1) u d :=
          WithTop.ne_top_iff_exists.mp hne
        have hDlt : D < INF := by
          rw [← hD] at hlt
          exact_mod_cast hlt
        have hstabE : edist t acc.length u d = edist t (t.nodes.length - 1) u d :=
          edist_stab t hclosed hbig hu d
        have hcle : c ≤ D := hub u hu d hd c nh hc D (by rw [hstabE]; exact hD.symm) hDlt
        have hDle : D ≤ c := by
          rcases hlb u hu d c nh hc with ⟨q, hq, hqc⟩ | hinf
          · have hle := edist_le_any_walk t hclosed q u d hu hq
            rw [← hD, hqc] at hle
            exact_mod_cast hle
          · omega
        have hcd : c = D := by omega
        rw [hcd, hD]
      have hround : ripRound t st = some (st, 0) :=
        opt_round_zero t hsym hclosed hsupp hopt hsmall
      refine ⟨st, acc ++ [0], ?_, ?_, ?_, hsupp, hopt⟩
      · simp only [ripGo]
        rw [hround]
        simp
      · rw [getLast?_append_cons]
        rfl
      · simp only [List.length_append, List.length_cons, List.length_nil]
        omega
    · push_neg at hbig
      obtain ⟨⟨st1, cnt⟩, hround, hsupp1, -⟩ := ripRound_success t hclosed hsupp
      by_cases hz : cnt = 0
      · subst hz
        obtain ⟨hst1, hstab⟩ := ripRound_zero_stable t hsym hclosed hsupp hround rfl
        have hopt : OptCost t st := stable_opt t hclosed hsupp hsz hlb hstab hsmall
        refine ⟨st1, acc ++ [0], ?_, ?_, ?_, hsupp1, ?_⟩
        · simp only [ripGo]
          rw [hround]
          simp
        · rw [getLast?_append_cons]
          rfl
        · simp only [List.length_append, List.length_cons, List.length_nil]
          omega
        · rw [show st1 = st from hst1]
          exact hopt
      · have hlb1 : LBInv t st1 := ripRound_LB t hsym hround hlb
        have hsz1 : SelfZero t st1 := ripRound_SelfZero hround hsz
        have hub1 : UBk t (acc.length + 1) st1 := ripRound_UB t hsym hclosed hround hsupp hub
        have hlenacc : (acc ++ [cnt]).length = acc.length + 1 := by simp
        obtain ⟨stf, counts, hgo, hlast, hlen, hsuppf, hoptf⟩ :=
          ih st1 (acc ++ [cnt]) hsupp1 hsz1 hlb1 (by rw [hlenacc]; exact hub1)
            (by rw [hlenacc]; omega) (by omega)
        refine ⟨stf, counts, ?_, hlast, ?_, hsuppf, hoptf⟩
        · simp only [ripGo]
          rw [hround]
          simp only [hz, if_false]
          exact hgo
        · rw [hlenacc] at hlen
          omega

/-!
## Claim theorem: monotone convergence to shortest paths (C5)
-/

/-- C5 (corrected): within every round of `simulate_rip`, stored costs are
non-increasing (`process_update` only ever replaces an entry by a strictly
cheaper one, so each table entry's cost at the end of a round is at most its
cost at the start); and for a closed, symmetric topology whose true
shortest-path costs all lie below the `INF` sentinel, a run whose round
budget is at least the node count terminates on a zero-change round without
exhausting the budget, and every router's final cost to every destination is
the cost of an actual walk that is minimal among all walks — the true
shortest-path cost.  The spec's bare "finite, connected, positive-weight"
premise is amended: convergence also needs `max_rounds ≥ |nodes|` and all
shortest-path costs below the `10**9` sentinel (positivity of weights is not
needed). -/
theorem rip_monotone_convergence (t : Topo) (maxRounds : Nat)
    (hsym : ∀ u ∈ t.nodes, ∀ v ∈ t.nodes, (v ∈ t.adj u ↔ u ∈ t.adj v))
    (hclosed : ∀ n ∈ t.nodes, ∀ m ∈ t.adj n, m ∈ t.nodes)
    (hsmall : ∀ u ∈ t.nodes, ∀ d ∈ t.nodes,
      edist t (t.nodes.length - 1) u d < ((INF : Nat) : ℕ∞))
    (hmax : t.nodes.length ≤ maxRounds) (hpos : 1 ≤ maxRounds) :
    (∀ st r, ripRound t st = some r → ∀ u d c nh, r.1 u d = some (c, nh) →
      ∃ c0 nh0, st u d = some (c0, nh0) ∧ c ≤ c0) ∧
    ∃ st rounds counts, simulateRip t maxRounds = some (st, rounds, counts) ∧
      rounds = counts.length ∧ rounds ≤ maxRounds ∧
      counts.getLast? = some 0 ∧
      ∀ u ∈ t.nodes, ∀ d ∈ t.nodes, ∃ c nh, st u d = some (c, nh) ∧
        (∃ p, WalkFrom t u p d ∧ walkCost t p = c) ∧
        ∀ p, WalkFrom t u p d → c ≤ walkCost t p := by
  constructor
  · intro st r hr u d c nh hv
    rcases ripRound_stLe hr u d with hsame | ⟨cur, v, hcur, hvv, hlt⟩
    · exact ⟨c, nh, by rw [← hsame, hv], le_refl c⟩
    · rw [hv] at hvv
      simp only [Option.some.injEq] at hvv
      refine ⟨cur.1, cur.2, by rw [hcur], ?_⟩
      rw [← hvv] at hlt
      exact le_of_lt hlt
  · obtain ⟨stf, counts, hgo, hlast, hlen, hsuppf, hoptf⟩ :=
      ripGo_converges t hsym hclosed hsmall maxRounds (initState t) []
        (fun u _ => initDV_hasKeys t u) (init_SelfZero t) (init_LB t)
        (init_UB0 t) (by simpa using hmax) hpos
    refine ⟨stf, counts.length, counts, hgo, rfl, by simpa using hlen, hlast, ?_⟩
    intro u hu d hd
    obtain ⟨⟨c, nh⟩, hc⟩ := Option.isSome_iff_exists.mp ((hsuppf u hu d).mpr hd)
    have hcD : (c : ℕ∞) = edist t (t.nodes.length - 1) u d := hoptf u hu d hd c nh hc
    have hne : edist t (t.nodes.length - 1) u d ≠ ⊤ := by
      rw [← hcD]
      exact WithTop.coe_ne_top
    obtain ⟨p, hwalk, -, hcost⟩ := edist_realized t _ u d hne
    refine ⟨c, nh, hc, ⟨p, hwalk, ?_⟩, ?_⟩
    · rw [← hcD] at hcost
      exact_mod_cast hcost
    · intro q hq
      have hle := edist_le_any_walk t hclosed q u d hu hq
      rw [← hcD] at hle
      exact_mod_cast hle

theorem rip_monotone_convergence_witness :
    ∃ st rounds counts, simulateRip triangleT 3 = some (st, rounds, counts) ∧
      rounds = counts.length ∧ rounds ≤ 3 ∧ counts.getLast? = some 0 ∧
      ∀ u ∈ triangleT.nodes, ∀ d ∈ triangleT.nodes, ∃ c nh,
        st u d = some (c, nh) ∧
        (∃ p, WalkFrom triangleT u p d ∧ walkCost triangleT p = c) ∧
        ∀ p, WalkFrom triangleT u p d → c ≤ walkCost triangleT p :=
  (rip_monotone_convergence triangleT 3 (by decide) (by decide) (by decide)
    (by decide) (by decide)).2

end NetSim
